import Mathlib

/-!
Verification of the Lanczos eigensolver core (tenpy/linalg/lanczos.py).

The vector type of the source (`np_conserved.Array`) is an opaque inner-product
vector space element; we embed it as a module `V` over a linear ordered field
`K`, with the elementary operations `norm : V → K` and `inner : V → V → K`
supplied as parameters (the source treats `npc.norm` / `npc.inner` as external
collaborators).  All scalars are modelled as exact field elements (`np.real` is
the identity in this real-scalar model).  The dense eigensolver
`np.linalg.eigh` is an external library primitive and is embedded as an opaque
function parameter `eigh`.  Fallible code paths (Python exceptions) are
modelled with `Except` / `Option`.
-/

deriving instance DecidableEq for Except

namespace Tenpy

variable {K : Type} [LinearOrderedField K]
variable {V : Type} [AddCommGroup V] [Module K V]

/-- Functional update of a matrix represented as `Nat → Nat → K`:
`mupd M i j x` is `M` with entry `(i, j)` set to `x`. -/
def mupd (M : Nat → Nat → K) (i j : Nat) (x : K) : Nat → Nat → K :=
  fun a b => if a = i ∧ b = j then x else M a b

/-- The leading `n × n` submatrix `M[0:n, 0:n]` (entries outside are zero). -/
def subMat (M : Nat → Nat → K) (n : Nat) : Nat → Nat → K :=
  fun a b => if a < n ∧ b < n then M a b else 0

/-!
## gram_schmidt (lanczos.py lines 10-52)

Source loop structure: for each pivot `j` in order, compute `n = norm vecs[j]`;
if `n > rcond` normalize the pivot in place and subtract its component from
every later vector (recording the overlap `ov[j, i]` first), else mark the
pivot `None`; finally the `None` entries are filtered out.  We embed the
in-place array as a list processed pivot by pivot: at each recursive call the
head is the current pivot and the tail holds the (already partially projected)
later vectors.  A vector marked `None` is simply not contributed to the output
list, which matches the final filter.
-/

/-- Inner loop of `gram_schmidt` (lines 37-39): for each later vector `v`
(at running index `i`), record `ov[j, i] = inner q v` and replace `v` by
`v - ov_ji • q`. -/
def gsProj (inner : V → V → K) (q : V) (j : Nat) :
    List V → Nat → (Nat → Nat → K) → List V × (Nat → Nat → K)
  | [], _, ov => ([], ov)
  | v :: rest, i, ov =>
    let c := inner q v
    let pr := gsProj inner q j rest (i + 1) (mupd ov j i c)
    ((v - c • q) :: pr.1, pr.2)

/-- The inner loop does not change the number of later vectors. -/
theorem gsProj_length_fst (inner : V → V → K) (q : V) (j : Nat) :
    ∀ (l : List V) (i : Nat) (ov : Nat → Nat → K),
      (gsProj inner q j l i ov).1.length = l.length
  | [], _, _ => rfl
  | _ :: rest, i, ov => by
    simp [gsProj, gsProj_length_fst inner q j rest (i + 1)]

/-- Outer loop of `gram_schmidt` (lines 33-43), processing the pivot at
original index `j`.  `ov[j, j]` records the pivot's norm; a pivot with
`norm ≤ rcond` is dropped (set to `None` in the source, filtered at line 44).
The recursion is driven by a fuel argument (instantiated with the list
length, which `gsProj` preserves) so that the definition reduces by
structural recursion. -/
def gsAux (norm : V → K) (inner : V → V → K) (rcond : K) :
    Nat → List V → Nat → (Nat → Nat → K) → List V × (Nat → Nat → K)
  | _, [], _, ov => ([], ov)
  | 0, _ :: _, _, ov => ([], ov)
  | fuel + 1, v :: rest, j, ov =>
    let n := norm v
    let ov1 := mupd ov j j n
    if n > rcond then
      let q := n⁻¹ • v
      let pr := gsProj inner q j rest (j + 1) ov1
      let out := gsAux norm inner rcond fuel pr.1 (j + 1) pr.2
      (q :: out.1, out.2)
    else
      gsAux norm inner rcond fuel rest (j + 1) ov1

/-- `gram_schmidt(vecs, rcond)` (lines 10-52).  On an empty input the source
evaluates `vecs[0].dtype` (line 32) and raises `IndexError`; we model the
exception as `none`.  The default `rcond` of the source is `1e-14`; callers
pass it explicitly here. -/
def gram_schmidt (norm : V → K) (inner : V → V → K)
    (vecs : List V) (rcond : K) : Option (List V × (Nat → Nat → K)) :=
  match vecs with
  | [] => none
  | _ :: _ =>
    some (gsAux norm inner rcond vecs.length vecs 0 (fun _ _ => 0))

/-!
## Specification-side orthonormalizer (for claim C6)

Modelled from the spec: "any vector whose residual norm falls below a relative
tolerance after projecting out earlier members is discarded (rank-deficient)",
the surviving vectors being normalized.  Here the residual of each vector is
computed lazily, by projecting out the earlier *surviving* (already
normalized) members in order, rather than by the source's eager in-place
subtraction.
-/

/-- Project `v` onto the complement of the (ordered) list `acc`,
subtracting the component along each member in turn. -/
def projectOut (inner : V → V → K) (acc : List V) (v : V) : V :=
  acc.foldl (fun w q => w - inner q w • q) v

/-- Spec-side Gram-Schmidt: `acc` is the list of survivors so far. -/
def gsSpecAux (norm : V → K) (inner : V → V → K) (rcond : K) :
    List V → List V → List V
  | _, [] => []
  | acc, v :: rest =>
    let r := projectOut inner acc v
    let n := norm r
    if n > rcond then
      n⁻¹ • r :: gsSpecAux norm inner rcond (acc ++ [n⁻¹ • r]) rest
    else
      gsSpecAux norm inner rcond acc rest

/-- Spec-side orthonormalizer: survivors of sequential projection/pruning. -/
def gsSpec (norm : V → K) (inner : V → V → K) (vecs : List V) (rcond : K) :
    List V :=
  gsSpecAux norm inner rcond [] vecs

/-!
## Lanczos core (lanczos.py lines 55-237)
-/

/-- External collaborators of the solver: the opaque vector operations
`npc.norm` / `npc.inner`, the operator application `A.matvec`, and the dense
symmetric eigensolver `np.linalg.eigh` (taking the submatrix size and the
matrix, returning eigenvalues and the eigenvector matrix). -/
structure LCtx (K V : Type) where
  norm : V → K
  inner : V → V → K
  matvec : V → V
  eigh : Nat → (Nat → Nat → K) → (Nat → K) × (Nat → Nat → K)

/-- Configuration surface of `lanczos` (lines 118-130), with the source's
defaults; `get_parameter` lookup/defaulting is external infrastructure. -/
structure LanczosParams (K : Type) where
  verbose : K
  N_cache : Nat
  N_min : Nat
  N_max : Nat
  E_tol : K
  P_tol : K
  min_gap : K

/-- The source defaults: `verbose=0, N_cache=6, N_min=2, N_max=20,
E_tol=5e-15, P_tol=1e-14, min_gap=1e-12`. -/
def defaultParams (K : Type) [LinearOrderedField K] : LanczosParams K :=
  { verbose := 0, N_cache := 6, N_min := 2, N_max := 20,
    E_tol := 5 / 10 ^ 15, P_tol := 1 / 10 ^ 14, min_gap := 1 / 10 ^ 12 }

/-- `ULP = 5.e-15` (line 137), the floor below which `beta` signals
exhaustion of the Krylov subspace. -/
def ulp (K : Type) [LinearOrderedField K] : K := 5 / 10 ^ 15

/-- `_to_cache(psi, cache, N)` (lines 233-237): FIFO cache of at most `N`
entries (append, then pop the front if over capacity). -/
def toCache (psi : V) (cache : List V) (N : Nat) : List V :=
  let c := cache ++ [psi]
  if N < c.length then c.tail else c

/-- One subspace-projection loop (lines 149-150 / 152-153 / 208-212):
`for o in os: w -= o * npc.inner(o, w, do_conj=True)`. -/
def projOut (inner : V → V → K) (os : List V) (w : V) : V :=
  os.foldl (fun w o => w - inner o w • o) w

/-- State of the forward (tridiagonalization) pass, the values of the local
variables of `lanczos` after each loop iteration.  `w` holds the residual
vector (before the normalization `w /= beta` of the next step), `Es` the list
of Ritz-eigenvalue rows, `ET`/`vT` the current eigen-decomposition.
`psiObj` tracks the value of the *caller's* `psi` object: at `k = 0` the
local `w` aliases `psi` (line 141), so `w /= beta` (line 144) normalizes the
caller's vector in place; every later in-place operation acts on fresh
arrays, so the object keeps that value (cf. the comment at line 205). -/
structure LState (K V : Type) where
  w : V
  beta : K
  cache : List V
  T : Nat → Nat → K
  Es : List (Nat → K)
  ET : Nat → K
  vT : Nat → Nat → K
  PErr : K
  DeltaE0 : K
  aboveULP : Bool
  alpha : K
  psiObj : V

/-- Initial state (lines 124-142): `Delta_E0 = 2.; P_err = 2.; Es = [];
T = 0; w = psi; beta = npc.norm(w)`. -/
def lState0 (ctx : LCtx K V) (psi : V) : LState K V :=
  { w := psi, beta := ctx.norm psi, cache := [], T := fun _ _ => 0,
    Es := [], ET := fun _ => 0, vT := fun _ _ => 0, PErr := 2, DeltaE0 := 2,
    aboveULP := true, alpha := 0, psiObj := psi }

/-- Body of the forward iteration at step `k` (lines 144-173).
`np.real(...)` is the identity in this real-scalar model, and
`E_T = [alpha]` at `k = 0` is the one-entry eigenvalue row (only its
index 0 is ever read). -/
def fstep (ctx : LCtx K V) (p : LanczosParams K) (ortho : List V)
    (k : Nat) (st : LState K V) : LState K V :=
  let w := st.beta⁻¹ • st.w
  let cache := toCache w st.cache p.N_cache
  let wc := cache.getD (cache.length - 1) 0
  let w1 := projOut ctx.inner ortho wc
  let w2 := ctx.matvec w1
  let w3 := projOut ctx.inner ortho.reverse w2
  let alpha := ctx.inner w3 wc
  let T1 := mupd st.T k k alpha
  let w4 := if 0 < k then w3 - st.beta • cache.getD (cache.length - 2) 0 else w3
  let w5 := w4 - alpha • wc
  let beta := ctx.norm w5
  let above := decide (ulp K < |beta|)
  let T2 := if above then mupd (mupd T1 k (k + 1) beta) (k + 1) k beta else T1
  if k = 0 then
    { w := w5, beta := beta, cache := cache, T := T2,
      Es := st.Es ++ [fun _ => alpha], ET := fun _ => alpha, vT := st.vT,
      PErr := st.PErr, DeltaE0 := st.DeltaE0, aboveULP := above,
      alpha := alpha, psiObj := w }
  else
    let ev := ctx.eigh (k + 1) (subMat T2 (k + 1))
    let RitzRes := |ev.2 k 0 * T2 k (k + 1)|
    let DeltaE0 := (st.Es.getLastD fun _ => 0) 0 - ev.1 0
    let gap := max (ev.1 1 - ev.1 0) p.min_gap
    let PErr := (RitzRes / gap) ^ 2
    { w := w5, beta := beta, cache := cache, T := T2,
      Es := st.Es ++ [ev.1], ET := ev.1, vT := ev.2,
      PErr := PErr, DeltaE0 := DeltaE0, aboveULP := above,
      alpha := alpha, psiObj := st.psiObj }

/-- The break condition of line 174:
`not above_ULP or (k + 1 >= N_min and (P_err < P_tol or Delta_E0 < E_tol))`. -/
def stopCond (p : LanczosParams K) (st : LState K V) (k : Nat) : Prop :=
  st.aboveULP = false ∨
    (p.N_min ≤ k + 1 ∧ (st.PErr < p.P_tol ∨ st.DeltaE0 < p.E_tol))

instance stopCondDecidable (p : LanczosParams K) (st : LState K V) (k : Nat) :
    Decidable (stopCond p st k) := by
  unfold stopCond; infer_instance

/-- The forward loop `for k in range(N_max)` (line 143) with the break test
after each body.  `rem` counts the iterations remaining after the current
one, so the entry call is `floop p f (N_max - 1) 0 st0` (requiring
`N_max ≥ 1`); the result is the final loop index `k` and the final state.
The step function is a parameter so that the same loop also drives the
unconstrained variant below. -/
def floop (p : LanczosParams K) (f : Nat → LState K V → LState K V) :
    Nat → Nat → LState K V → Nat × LState K V
  | 0, k, st => (k, f k st)
  | r + 1, k, st =>
    let st1 := f k st
    if stopCond p st1 k then (k, st1) else floop p f r (k + 1) st1

/-- Iterating a step function from index `k` on state `st`, `m` times. -/
def stepsFrom {S : Type} (f : Nat → S → S) (k : Nat) (st : S) : Nat → S
  | 0 => st
  | m + 1 => f (k + m) (stepsFrom f k st m)

/-- The forward-pass trajectory: state after `j` completed iterations. -/
def ltraj (ctx : LCtx K V) (p : LanczosParams K) (ortho : List V) (psi : V)
    (j : Nat) : LState K V :=
  stepsFrom (fstep ctx p ortho) 0 (lState0 ctx psi) j

/-- Result of the forward pass: final loop index and final state. -/
def lForward (ctx : LCtx K V) (p : LanczosParams K) (ortho : List V)
    (psi : V) : Nat × LState K V :=
  floop p (fstep ctx p ortho) (p.N_max - 1) 0 (lState0 ctx psi)

/-- Return value of `lanczos`: eigenvalue estimate, eigenvector estimate and
step count, plus `psiFinal`, the value the caller's `psi` object holds on
return (the frame effect of the call). -/
structure LResult (K V : Type) where
  E0 : K
  psi0 : V
  N : Nat
  psiFinal : V
deriving DecidableEq

/-- The cached part of the reconstruction (lines 197-200):
`psi0 = psi * v_T[0, 0]` then
`for k in range(1, min(len(cache) + 1, N)): psi0 += v_T[N - k, 0] * cache[-k]`. -/
def cacheComb (vT : Nat → Nat → K) (N : Nat) (cache : List V) (init : V) : V :=
  (List.range' 1 (min (cache.length + 1) N - 1)).foldl
    (fun acc k => acc + vT (N - k) 0 • cache.getD (cache.length - k) 0) init

/-- State of the restart-replay loop (lines 204-221): the two rolling Krylov
vectors `q0`, `q1`, the current off-diagonal coefficient `beta`, and the
accumulated eigenvector `psi0`. -/
structure RState (K V : Type) where
  q0 : V
  q1 : V
  beta : K
  psi0 : V

/-- Body of the replay iteration at index `k` (lines 207-221): same
projections and operator application as the forward pass, but the recurrence
coefficients are read from `T`; `beta` is the previous iteration's
off-diagonal entry when `k > 0`. -/
def rstep (ctx : LCtx K V) (ortho : List V) (T vT : Nat → Nat → K)
    (r : RState K V) (k : Nat) : RState K V :=
  let w := r.q1
  let w1 := projOut ctx.inner ortho w
  let w2 := ctx.matvec w1
  let w3 := projOut ctx.inner ortho.reverse w2
  let w4 := if 0 < k then w3 - r.beta • r.q0 else w3
  let alpha := T k k
  let w5 := w4 - alpha • r.q1
  let beta := T k (k + 1)
  let w6 := beta⁻¹ • w5
  { q0 := r.q1, q1 := w6, beta := beta, psi0 := r.psi0 + vT (k + 1) 0 • w6 }

/-- `lanczos` after the orthogonal subspace has been prepared (lines
121-230).  `N_cache < 2` raises `ValueError` (lines 122-123) before the loop;
`N_max = 0` leaves the loop variable `k` unbound, so line 176 `N = k + 1`
raises an exception.  If `N = 1` the solver returns `psi.copy()` — whose
value is the start vector as normalized in place at `k = 0`.  Otherwise the
second pass combines the cached vectors and replays the recurrence from the
(in-place normalized) start vector (`q1 = psi`, line 205), then normalizes
the result.  The ill-conditioning message of lines 223-224 is a non-fatal
`warnings.warn`, a diagnostic side channel that is not modelled. -/
def lanczosMain (ctx : LCtx K V) (psi : V) (p : LanczosParams K)
    (ortho : List V) : Except String (LResult K V) :=
  if p.N_cache < 2 then .error "Need to cache at least two vectors."
  else if p.N_max = 0 then .error "UnboundLocalError: k"
  else
    let res := lForward ctx p ortho psi
    let stf := res.2
    let N := res.1 + 1
    if N = 1 then
      .ok { E0 := stf.ET 0, psi0 := stf.psiObj, N := N, psiFinal := stf.psiObj }
    else
      let psi0a := cacheComb stf.vT N stf.cache (stf.vT 0 0 • stf.psiObj)
      let r0 : RState K V :=
        { q0 := 0, q1 := stf.psiObj, beta := stf.beta, psi0 := psi0a }
      let rf := (List.range (N - stf.cache.length - 1)).foldl
        (rstep ctx ortho stf.T stf.vT) r0
      let nrm := ctx.norm rf.psi0
      .ok { E0 := stf.ET 0, psi0 := nrm⁻¹ • rf.psi0, N := N,
            psiFinal := stf.psiObj }

/-- `lanczos(A, psi, lanczos_params, orthogonal_to)` (lines 55-230).  The
orthogonal subspace is orthonormalized once up front when nonempty (lines
119-120); note the source passes `verbose / 10` as the *second positional
argument* of `gram_schmidt`, i.e. as `rcond`.  The `none` branch models the
`IndexError` of `gram_schmidt` on an empty list, which is unreachable here
because of the length guard. -/
def lanczos (ctx : LCtx K V) (psi : V) (p : LanczosParams K)
    (orthogonal_to : List V) : Except String (LResult K V) :=
  if 0 < orthogonal_to.length then
    match gram_schmidt ctx.norm ctx.inner orthogonal_to (p.verbose / 10) with
    | none => .error "IndexError: list index out of range"
    | some pr => lanczosMain ctx psi p pr.1
  else lanczosMain ctx psi p orthogonal_to

/-!
## Unconstrained variant (for claim C9)

The same solver with every subspace-projection loop removed and no call to
the orthonormalizer: the behaviour claim C9 asserts for an empty
`orthogonal_to` list.
-/

/-- Forward-iteration body with no subspace projections. -/
def fstepU (ctx : LCtx K V) (p : LanczosParams K)
    (k : Nat) (st : LState K V) : LState K V :=
  let w := st.beta⁻¹ • st.w
  let cache := toCache w st.cache p.N_cache
  let wc := cache.getD (cache.length - 1) 0
  let w2 := ctx.matvec wc
  let alpha := ctx.inner w2 wc
  let T1 := mupd st.T k k alpha
  let w4 := if 0 < k then w2 - st.beta • cache.getD (cache.length - 2) 0 else w2
  let w5 := w4 - alpha • wc
  let beta := ctx.norm w5
  let above := decide (ulp K < |beta|)
  let T2 := if above then mupd (mupd T1 k (k + 1) beta) (k + 1) k beta else T1
  if k = 0 then
    { w := w5, beta := beta, cache := cache, T := T2,
      Es := st.Es ++ [fun _ => alpha], ET := fun _ => alpha, vT := st.vT,
      PErr := st.PErr, DeltaE0 := st.DeltaE0, aboveULP := above,
      alpha := alpha, psiObj := w }
  else
    let ev := ctx.eigh (k + 1) (subMat T2 (k + 1))
    let RitzRes := |ev.2 k 0 * T2 k (k + 1)|
    let DeltaE0 := (st.Es.getLastD fun _ => 0) 0 - ev.1 0
    let gap := max (ev.1 1 - ev.1 0) p.min_gap
    let PErr := (RitzRes / gap) ^ 2
    { w := w5, beta := beta, cache := cache, T := T2,
      Es := st.Es ++ [ev.1], ET := ev.1, vT := ev.2,
      PErr := PErr, DeltaE0 := DeltaE0, aboveULP := above,
      alpha := alpha, psiObj := st.psiObj }

/-- Replay-iteration body with no subspace projections. -/
def rstepU (ctx : LCtx K V) (T vT : Nat → Nat → K)
    (r : RState K V) (k : Nat) : RState K V :=
  let w := r.q1
  let w2 := ctx.matvec w
  let w4 := if 0 < k then w2 - r.beta • r.q0 else w2
  let alpha := T k k
  let w5 := w4 - alpha • r.q1
  let beta := T k (k + 1)
  let w6 := beta⁻¹ • w5
  { q0 := r.q1, q1 := w6, beta := beta, psi0 := r.psi0 + vT (k + 1) 0 • w6 }

/-- The unconstrained solve: no orthonormalizer call, no projections. -/
def lanczosUnconstrained (ctx : LCtx K V) (psi : V) (p : LanczosParams K) :
    Except String (LResult K V) :=
  if p.N_cache < 2 then .error "Need to cache at least two vectors."
  else if p.N_max = 0 then .error "UnboundLocalError: k"
  else
    let res := floop p (fstepU ctx p) (p.N_max - 1) 0 (lState0 ctx psi)
    let stf := res.2
    let N := res.1 + 1
    if N = 1 then
      .ok { E0 := stf.ET 0, psi0 := stf.psiObj, N := N, psiFinal := stf.psiObj }
    else
      let psi0a := cacheComb stf.vT N stf.cache (stf.vT 0 0 • stf.psiObj)
      let r0 : RState K V :=
        { q0 := 0, q1 := stf.psiObj, beta := stf.beta, psi0 := psi0a }
      let rf := (List.range (N - stf.cache.length - 1)).foldl
        (rstepU ctx stf.T stf.vT) r0
      let nrm := ctx.norm rf.psi0
      .ok { E0 := stf.ET 0, psi0 := nrm⁻¹ • rf.psi0, N := N,
            psiFinal := stf.psiObj }

/-!
## Concrete instantiations

Executable instances of the opaque collaborators over `ℚ`, used to evaluate
the model on concrete inputs.
-/

/-- One-dimensional rational vectors: absolute value as the norm. -/
def normQ (v : ℚ) : ℚ := |v|

/-- One-dimensional rational vectors: multiplication as the inner product. -/
def innerQ (a b : ℚ) : ℚ := a * b

/-- A context over `V = ℚ` whose operator maps everything to zero (so the
Krylov subspace is exhausted after one application). -/
def ctxZero : LCtx ℚ ℚ :=
  { norm := normQ, inner := innerQ, matvec := fun _ => 0,
    eigh := fun _ _ => (fun _ => 0, fun _ _ => 0) }

/-- Two-dimensional rational vectors, taxicab norm. -/
def norm2 (v : ℚ × ℚ) : ℚ := |v.1| + |v.2|

/-- Two-dimensional rational vectors, dot product. -/
def inner2 (a b : ℚ × ℚ) : ℚ := a.1 * b.1 + a.2 * b.2

/-- A context over `ℚ × ℚ`: the operator swaps the coordinates, and the
(dummy) dense eigensolver reports `n` as every eigenvalue of an `n × n`
matrix, so the lowest Ritz estimate increases at every step. -/
def ctxSwap : LCtx ℚ (ℚ × ℚ) :=
  { norm := norm2, inner := inner2, matvec := fun v => (v.2, v.1),
    eigh := fun n _ => (fun _ => (n : ℚ), fun _ _ => 0) }

/-- Four-dimensional rational vectors `a•e0 + b•e1 + c•e2 + d•e3`. -/
abbrev V4 : Type := ℚ × ℚ × ℚ × ℚ

/-- Taxicab norm on `V4`. -/
def norm4 (v : V4) : ℚ := |v.1| + |v.2.1| + |v.2.2.1| + |v.2.2.2|

/-- Dot product on `V4`. -/
def inner4 (a b : V4) : ℚ :=
  a.1 * b.1 + a.2.1 * b.2.1 + a.2.2.1 * b.2.2.1 + a.2.2.2 * b.2.2.2

/-- A context over `V4`: the operator is the cyclic shift `e_i ↦ e_{i+1}`,
and the (dummy) dense eigensolver reports eigenvalues `i - n` (strictly
improving lowest estimate) with an all-ones eigenvector matrix. -/
def ctxShift : LCtx ℚ V4 :=
  { norm := norm4, inner := inner4,
    matvec := fun v => (v.2.2.2, (v.1, (v.2.1, v.2.2.1))),
    eigh := fun n _ => (fun i => (i : ℚ) - n, fun _ _ => 1) }

/-- The successful result of a solver invocation, if any. -/
def okResult : Except String (LResult K V) → Option (LResult K V)
  | .ok r => some r
  | .error _ => none

/-!
## The forward loop: exit characterization

`floop_go` is the workhorse: the loop exits at the first index whose
post-body state satisfies the break condition, or after exhausting the
iteration budget.
-/

/-- Shifting the start of an iteration by one step. -/
theorem stepsFrom_shift {S : Type} (f : Nat → S → S) (k : Nat) (st : S) :
    ∀ m, stepsFrom f (k + 1) (f k st) m = stepsFrom f k st (m + 1)
  | 0 => rfl
  | m + 1 => by
    have h : k + 1 + m = k + (m + 1) := by omega
    simp only [stepsFrom, stepsFrom_shift f k st m, h]

/-- Exit characterization of the forward loop: it returns the first index
(at most `r` steps after the start) whose post-body state meets the break
condition, together with that state. -/
theorem floop_go (p : LanczosParams K) (f : Nat → LState K V → LState K V) :
    ∀ (r k : Nat) (st : LState K V),
      ∃ m, m ≤ r ∧
        floop p f r k st = (k + m, stepsFrom f k st (m + 1)) ∧
        (stopCond p (stepsFrom f k st (m + 1)) (k + m) ∨ m = r) ∧
        ∀ i, i < m → ¬ stopCond p (stepsFrom f k st (i + 1)) (k + i)
  | 0, k, st => by
    refine ⟨0, le_refl 0, rfl, Or.inr rfl, ?_⟩
    intro i hi; omega
  | r + 1, k, st => by
    by_cases h : stopCond p (f k st) k
    · refine ⟨0, by omega, ?_, Or.inl ?_, ?_⟩
      · simp [floop, if_pos h, stepsFrom]
      · simpa [stepsFrom] using h
      · intro i hi; omega
    · obtain ⟨m, hmr, heq, hstop, hmin⟩ := floop_go p f r (k + 1) (f k st)
      refine ⟨m + 1, by omega, ?_, ?_, ?_⟩
      · have : floop p f (r + 1) k st = floop p f r (k + 1) (f k st) := by
          simp [floop, if_neg h]
        rw [this, heq, stepsFrom_shift]
        have : k + 1 + m = k + (m + 1) := by omega
        rw [this]
      · rcases hstop with hs | hs
        · left
          have h1 : k + 1 + m = k + (m + 1) := by omega
          rwa [stepsFrom_shift, h1] at hs
        · right; omega
      · intro i hi
        match i with
        | 0 => simpa [stepsFrom] using h
        | i + 1 =>
          have h1 : k + 1 + i = k + (i + 1) := by omega
          have := hmin i (by omega)
          rwa [stepsFrom_shift, h1] at this

/-- The solver's forward pass: exit index, final state as a point of the
trajectory, bound by `N_max`, and minimal-exit characterization. -/
theorem lForward_spec (ctx : LCtx K V) (p : LanczosParams K) (ortho : List V)
    (psi : V) (hmax : 1 ≤ p.N_max) :
    ∃ ke,
      lForward ctx p ortho psi = (ke, ltraj ctx p ortho psi (ke + 1)) ∧
      ke + 1 ≤ p.N_max ∧
      (stopCond p (ltraj ctx p ortho psi (ke + 1)) ke ∨ ke + 1 = p.N_max) ∧
      ∀ i, i < ke → ¬ stopCond p (ltraj ctx p ortho psi (i + 1)) i := by
  obtain ⟨m, hmr, heq, hstop, hmin⟩ :=
    floop_go p (fstep ctx p ortho) (p.N_max - 1) 0 (lState0 ctx psi)
  refine ⟨m, ?_, by omega, ?_, ?_⟩
  · simpa [lForward, ltraj] using heq
  · rcases hstop with hs | hs
    · exact Or.inl (by simpa [ltraj] using hs)
    · exact Or.inr (by omega)
  · intro i hi
    have := hmin i hi
    simpa [ltraj] using this

/-- Every run with a valid configuration returns successfully. -/
theorem lanczosMain_ok (ctx : LCtx K V) (psi : V) (p : LanczosParams K)
    (ortho : List V) (h2 : 2 ≤ p.N_cache) (h0 : p.N_max ≠ 0) :
    ∃ r, lanczosMain ctx psi p ortho = .ok r := by
  unfold lanczosMain
  rw [if_neg (by omega), if_neg h0]
  by_cases h : (lForward ctx p ortho psi).1 + 1 = 1 <;> simp [h]

/-- `lanczos` always reduces to `lanczosMain` on some prepared subspace. -/
theorem lanczos_eq_main (ctx : LCtx K V) (psi : V) (p : LanczosParams K)
    (ortho : List V) :
    ∃ os, lanczos ctx psi p ortho = lanczosMain ctx psi p os := by
  cases ortho with
  | nil => exact ⟨[], by simp [lanczos]⟩
  | cons v l =>
    refine ⟨(gsAux ctx.norm ctx.inner (p.verbose / 10)
      (v :: l).length (v :: l) 0 fun _ _ => 0).1, ?_⟩
    simp [lanczos, gram_schmidt]

/-- From the first step on, the caller's `psi` object holds the in-place
normalized start vector. -/
theorem ltraj_psiObj (ctx : LCtx K V) (p : LanczosParams K) (ortho : List V)
    (psi : V) (j : Nat) (hj : 1 ≤ j) :
    (ltraj ctx p ortho psi j).psiObj = (ctx.norm psi)⁻¹ • psi := by
  induction j with
  | zero => omega
  | succ n ih =>
    by_cases hn : n = 0
    · subst hn
      simp [ltraj, stepsFrom, fstep, lState0]
    · have hih := ih (by omega)
      have hstep : ltraj ctx p ortho psi (n + 1) =
          fstep ctx p ortho (0 + n) (ltraj ctx p ortho psi n) := rfl
      rw [hstep]
      have h0n : ¬(0 + n = 0) := by omega
      simp only [fstep, h0n, if_false]
      exact hih

/-!
## Claims
-/

/-- Claim C5: calling the orthonormalizer on an empty list of vectors is
claimed to return an empty list of survivors and a 0×0 overlap record
without raising an error.  In the code, line 32 evaluates `vecs[0].dtype`
before anything else, which raises `IndexError` on an empty list (modelled
as `none`); the loop itself would have handled the empty case. -/
theorem c5_empty_input_raises (norm : V → K) (inner : V → V → K) (rcond : K) :
    gram_schmidt norm inner ([] : List V) rcond = none := rfl

/-- Claim C3: the solver fails with the fatal configuration error exactly
when the configured cache capacity is below two; the failure happens for
every operator, start vector and subspace (so before any operator
application or iteration), and for `N_cache ≥ 2` this error is never
raised. -/
theorem c3_cache_config_error_iff (ctx : LCtx K V) (psi : V)
    (p : LanczosParams K) (ortho : List V) :
    p.N_cache < 2 ↔
      lanczos ctx psi p ortho = .error "Need to cache at least two vectors." := by
  obtain ⟨os, hos⟩ := lanczos_eq_main ctx psi p ortho
  rw [hos]
  constructor
  · intro h
    unfold lanczosMain
    rw [if_pos h]
  · intro h
    by_contra hge
    by_cases h0 : p.N_max = 0
    · unfold lanczosMain at h
      rw [if_neg hge, if_pos h0] at h
      have := Except.error.inj h
      simp at this
    · obtain ⟨r, hr⟩ := lanczosMain_ok ctx psi p os (by omega) h0
      rw [hr] at h
      exact Except.noConfusion h

/-- Claim C2 (counterexample): with start vector `2` (norm `2`) and the zero
operator, the solver exits after a single step, but the returned eigenvector
is `1` — the in-place normalized start vector — and the caller's `psi`
object also holds `1` on return, not the original value `2`. -/
theorem c2_counterexample :
    lanczos ctxZero (2 : ℚ) (defaultParams ℚ) [] =
      .ok { E0 := 0, psi0 := 1, N := 1, psiFinal := 1 } ∧ (1 : ℚ) ≠ 2 := by
  constructor
  · with_unfolding_all decide
  · norm_num

/-- Claim C2 (amended): for every run with a valid configuration, the
solver's only effect on the caller's starting vector is the in-place
normalization of the first forward step (`w /= beta` at `k = 0`, where `w`
aliases `psi`): on return the caller's vector holds `psi/‖psi‖`, and in the
degenerate `N = 1` case the returned eigenvector is a copy of that
normalized vector. -/
theorem c2_psi_normalized_in_place (ctx : LCtx K V) (psi : V)
    (p : LanczosParams K) (ortho : List V)
    (hmax : 1 ≤ p.N_max) (hcache : 2 ≤ p.N_cache) :
    (okResult (lanczos ctx psi p ortho)).map LResult.psiFinal =
        some ((ctx.norm psi)⁻¹ • psi) ∧
      ((okResult (lanczos ctx psi p ortho)).map LResult.N = some 1 →
        (okResult (lanczos ctx psi p ortho)).map LResult.psi0 =
          some ((ctx.norm psi)⁻¹ • psi)) := by
  obtain ⟨os, hos⟩ := lanczos_eq_main ctx psi p ortho
  obtain ⟨ke, hke, _, _, _⟩ := lForward_spec ctx p os psi hmax
  have hobj : (ltraj ctx p os psi (ke + 1)).psiObj = (ctx.norm psi)⁻¹ • psi :=
    ltraj_psiObj ctx p os psi (ke + 1) (by omega)
  rw [hos]
  unfold lanczosMain
  rw [if_neg (by omega), if_neg (by omega), hke]
  by_cases h1 : ke + 1 = 1
  · have hke0 : ke = 0 := by omega
    subst hke0
    simp [okResult, hobj]
  · simp [h1, okResult, hobj]

/-- Claim C2 witness: concrete instantiation of the amended claim. -/
theorem c2_witness :
    (okResult (lanczos ctxZero (2 : ℚ) (defaultParams ℚ) [])).map
        LResult.psiFinal = some ((ctxZero.norm 2)⁻¹ • 2) :=
  (c2_psi_normalized_in_place ctxZero 2 (defaultParams ℚ) []
    (by decide) (by decide)).1

/-- Claim C9: with an empty `orthogonal_to` list the solver never invokes
the orthonormalizer (whose empty-input path would fail, cf. C5) and every
subspace-projection loop is a no-op: the run coincides exactly with the
unconstrained solver, and with a valid configuration it returns
successfully. -/
theorem c9_empty_ortho_unconstrained (ctx : LCtx K V) (psi : V)
    (p : LanczosParams K) (h2 : 2 ≤ p.N_cache) (hmax : 1 ≤ p.N_max) :
    lanczos ctx psi p [] = lanczosUnconstrained ctx psi p ∧
      (okResult (lanczos ctx psi p [])).isSome = true := by
  have hmain : lanczos ctx psi p [] = lanczosMain ctx psi p [] := by
    simp [lanczos]
  have hU : lanczosMain ctx psi p [] = lanczosUnconstrained ctx psi p := rfl
  refine ⟨hmain.trans hU, ?_⟩
  obtain ⟨r, hr⟩ := lanczosMain_ok ctx psi p [] h2 (by omega)
  rw [hmain, hr]
  rfl

/-- Claim C9 witness: concrete instantiation. -/
theorem c9_witness :
    lanczos ctxZero (2 : ℚ) (defaultParams ℚ) [] =
        lanczosUnconstrained ctxZero 2 (defaultParams ℚ) ∧
      (okResult (lanczos ctxZero (2 : ℚ) (defaultParams ℚ) [])).isSome = true :=
  c9_empty_ortho_unconstrained ctxZero 2 (defaultParams ℚ)
    (by decide) (by decide)

/-!
## Eager in-place Gram-Schmidt equals lazy sequential projection (claim C6)
-/

/-- The survivors of the inner projection loop: each later vector minus its
component along the new pivot. -/
theorem gsProj_fst (inner : V → V → K) (q : V) (j : Nat) :
    ∀ (l : List V) (i : Nat) (ov : Nat → Nat → K),
      (gsProj inner q j l i ov).1 = l.map fun u => u - inner q u • q
  | [], _, _ => rfl
  | v :: rest, i, ov => by
    simp [gsProj, gsProj_fst inner q j rest (i + 1)]

/-- Appending one more member to the projection list. -/
theorem projectOut_append (inner : V → V → K) (acc : List V) (q v : V) :
    projectOut inner (acc ++ [q]) v =
      projectOut inner acc v - inner q (projectOut inner acc v) • q := by
  simp [projectOut, List.foldl_append]

/-- The eager in-place pass (each pivot immediately projected out of all
later vectors) computes the same survivors as the lazy spec-side pass (each
vector's residual computed at its own pivot time). -/
theorem gsAux_fst_eq_gsSpecAux (norm : V → K) (inner : V → V → K) (rcond : K) :
    ∀ (rest acc : List V) (j : Nat) (ov : Nat → Nat → K) (fuel : Nat),
      rest.length ≤ fuel →
      (gsAux norm inner rcond fuel (rest.map (projectOut inner acc)) j ov).1 =
        gsSpecAux norm inner rcond acc rest
  | [], _, _, _, _, _ => by simp [gsAux, gsSpecAux]
  | v :: rest, acc, j, ov, 0, h => by simp at h
  | v :: rest, acc, j, ov, fuel + 1, h => by
    have hlen : rest.length ≤ fuel := by
      simpa using h
    simp only [List.map_cons, gsAux, gsSpecAux]
    by_cases hn : norm (projectOut inner acc v) > rcond
    · rw [if_pos hn]
      have hmap :
          (gsProj inner ((norm (projectOut inner acc v))⁻¹ • projectOut inner acc v)
              j (rest.map (projectOut inner acc)) (j + 1)
              (mupd ov j j (norm (projectOut inner acc v)))).1 =
            rest.map (projectOut inner
              (acc ++ [(norm (projectOut inner acc v))⁻¹ • projectOut inner acc v])) := by
        rw [gsProj_fst, List.map_map]
        refine List.map_congr_left ?_
        intro u _
        simp [Function.comp, projectOut_append]
      simp only [hmap]
      rw [if_pos hn]
      simp only [List.cons.injEq, true_and]
      exact gsAux_fst_eq_gsSpecAux norm inner rcond rest _ (j + 1) _ fuel hlen
    · rw [if_neg hn, if_neg hn]
      exact gsAux_fst_eq_gsSpecAux norm inner rcond rest acc (j + 1) _ fuel hlen

/-- Claim C6: at solver setup a nonempty caller-supplied orthogonal subspace
is normalized and pruned exactly once: the subspace actually used by both
passes is the spec-side sequential orthonormalization, in which a vector is
discarded exactly when its residual norm after projecting out the earlier
surviving members does not exceed the tolerance (the source passes
`verbose / 10` as that tolerance), and is normalized otherwise. -/
theorem c6_subspace_pruned_once (ctx : LCtx K V) (psi : V)
    (p : LanczosParams K) (v : V) (l : List V) :
    lanczos ctx psi p (v :: l) =
      lanczosMain ctx psi p
        (gsSpec ctx.norm ctx.inner (v :: l) (p.verbose / 10)) := by
  have hmap : (v :: l).map (projectOut ctx.inner []) = v :: l := by
    rw [show projectOut ctx.inner ([] : List V) = id from rfl, List.map_id]
  have h1 := gsAux_fst_eq_gsSpecAux ctx.norm ctx.inner (p.verbose / 10)
    (v :: l) [] 0 (fun _ _ => 0) (v :: l).length (le_refl _)
  rw [hmap] at h1
  simp only [List.length_cons] at h1
  simp [lanczos, gram_schmidt, gsSpec, h1]

/-!
## The tridiagonal matrix T along the trajectory
-/

theorem mupd_same (M : Nat → Nat → K) (i j : Nat) (x : K) :
    mupd M i j x i j = x := by simp [mupd]

theorem mupd_ne (M : Nat → Nat → K) (i j : Nat) (x : K) (a b : Nat)
    (h : ¬(a = i ∧ b = j)) : mupd M i j x a b = M a b := by
  simp only [mupd]
  rw [if_neg h]

/-- The new state's `T` in terms of the previous one: the diagonal write,
plus the symmetric off-diagonal writes exactly when `beta` stayed above the
floor. -/
theorem fstep_T_form (ctx : LCtx K V) (p : LanczosParams K) (ortho : List V)
    (k : Nat) (st : LState K V) :
    (fstep ctx p ortho k st).T =
      if (fstep ctx p ortho k st).aboveULP = true then
        mupd (mupd (mupd st.T k k ((fstep ctx p ortho k st).alpha))
          k (k + 1) ((fstep ctx p ortho k st).beta))
          (k + 1) k ((fstep ctx p ortho k st).beta)
      else mupd st.T k k ((fstep ctx p ortho k st).alpha) := by
  by_cases h : k = 0 <;> simp [fstep, h]

/-- The recurrence coefficient `beta` of every state after a step is a
vector norm. -/
theorem fstep_beta_is_norm (ctx : LCtx K V) (p : LanczosParams K)
    (ortho : List V) (k : Nat) (st : LState K V) :
    ∃ u, (fstep ctx p ortho k st).beta = ctx.norm u := by
  by_cases h : k = 0
  · subst h
    exact ⟨_, rfl⟩
  · simp only [fstep]
    rw [if_neg h]
    exact ⟨_, rfl⟩

/-- Entries of `T` at positions not yet reached are still zero: after `j`
steps every entry with index sum at least `2 j` is zero. -/
theorem ltraj_T_highzero (ctx : LCtx K V) (p : LanczosParams K)
    (ortho : List V) (psi : V) :
    ∀ (j a b : Nat), 2 * j ≤ a + b → (ltraj ctx p ortho psi j).T a b = 0
  | 0, a, b, _ => rfl
  | j + 1, a, b, h => by
    have hstep : ltraj ctx p ortho psi (j + 1) =
        fstep ctx p ortho (0 + j) (ltraj ctx p ortho psi j) := rfl
    rw [hstep, fstep_T_form]
    have hne1 : ¬(a = 0 + j ∧ b = 0 + j) := by omega
    have hne2 : ¬(a = 0 + j ∧ b = 0 + j + 1) := by omega
    have hne3 : ¬(a = 0 + j + 1 ∧ b = 0 + j) := by omega
    have hold := ltraj_T_highzero ctx p ortho psi j a b (by omega)
    split
    · rw [mupd_ne _ _ _ _ _ _ hne3, mupd_ne _ _ _ _ _ _ hne2,
        mupd_ne _ _ _ _ _ _ hne1]
      exact hold
    · rw [mupd_ne _ _ _ _ _ _ hne1]
      exact hold

/-- Entries written at step `k` are never overwritten by later steps. -/
theorem ltraj_T_stable (ctx : LCtx K V) (p : LanczosParams K)
    (ortho : List V) (psi : V) (k : Nat) :
    ∀ (j : Nat), k + 1 ≤ j →
      (ltraj ctx p ortho psi j).T k k = (ltraj ctx p ortho psi (k + 1)).T k k ∧
      (ltraj ctx p ortho psi j).T k (k + 1) =
        (ltraj ctx p ortho psi (k + 1)).T k (k + 1)
  | 0, h => by omega
  | j + 1, h => by
    by_cases hj : j = k
    · subst hj; exact ⟨rfl, rfl⟩
    · have hjk : k + 1 ≤ j := by omega
      have ih := ltraj_T_stable ctx p ortho psi k j hjk
      have hstep : ltraj ctx p ortho psi (j + 1) =
          fstep ctx p ortho (0 + j) (ltraj ctx p ortho psi j) := rfl
      rw [hstep, fstep_T_form]
      have hne1 : ¬(k = 0 + j ∧ k = 0 + j) := by omega
      have hne2 : ¬(k = 0 + j ∧ k = 0 + j + 1) := by omega
      have hne3 : ¬(k = 0 + j + 1 ∧ k = 0 + j) := by omega
      have hne4 : ¬(k = 0 + j ∧ k + 1 = 0 + j) := by omega
      have hne5 : ¬(k = 0 + j ∧ k + 1 = 0 + j + 1) := by omega
      have hne6 : ¬(k = 0 + j + 1 ∧ k + 1 = 0 + j) := by omega
      constructor
      · split
        · rw [mupd_ne _ _ _ _ _ _ hne3, mupd_ne _ _ _ _ _ _ hne2,
            mupd_ne _ _ _ _ _ _ hne1]
          exact ih.1
        · rw [mupd_ne _ _ _ _ _ _ hne1]
          exact ih.1
      · split
        · rw [mupd_ne _ _ _ _ _ _ hne6, mupd_ne _ _ _ _ _ _ hne5,
            mupd_ne _ _ _ _ _ _ hne4]
          exact ih.2
        · rw [mupd_ne _ _ _ _ _ _ hne4]
          exact ih.2

/-- Unfolding one trajectory step. -/
theorem ltraj_succ (ctx : LCtx K V) (p : LanczosParams K) (ortho : List V)
    (psi : V) (j : Nat) :
    ltraj ctx p ortho psi (j + 1) =
      fstep ctx p ortho j (ltraj ctx p ortho psi j) := by
  show fstep ctx p ortho (0 + j) (ltraj ctx p ortho psi j) = _
  rw [Nat.zero_add]

/-- The values written at step `k`: the diagonal entry is that step's
`alpha`, and when `beta` stayed above the floor the off-diagonal entry is
that step's `beta`. -/
theorem ltraj_T_written (ctx : LCtx K V) (p : LanczosParams K)
    (ortho : List V) (psi : V) (k : Nat) :
    (ltraj ctx p ortho psi (k + 1)).T k k =
        (ltraj ctx p ortho psi (k + 1)).alpha ∧
      ((ltraj ctx p ortho psi (k + 1)).aboveULP = true →
        (ltraj ctx p ortho psi (k + 1)).T k (k + 1) =
          (ltraj ctx p ortho psi (k + 1)).beta) := by
  rw [ltraj_succ]
  constructor
  · rw [fstep_T_form]
    split
    · rw [mupd_ne _ _ _ _ _ _ (by omega), mupd_ne _ _ _ _ _ _ (by omega),
        mupd_same]
    · rw [mupd_same]
  · intro habove
    rw [fstep_T_form, if_pos habove]
    rw [mupd_ne _ _ _ _ _ _ (by omega), mupd_same]

/-- Claim C7: throughout the forward pass the matrix `T` stays symmetric
(`T[i,j] = T[j,i]`), tridiagonal (entries with `|i-j| > 1` are zero), and
every off-diagonal entry is non-negative (each is either still zero or a
vector norm). -/
theorem c7_T_symmetric_tridiagonal (ctx : LCtx K V) (p : LanczosParams K)
    (ortho : List V) (psi : V) (hnorm : ∀ v, 0 ≤ ctx.norm v) (j : Nat) :
    (∀ a b, (ltraj ctx p ortho psi j).T a b = (ltraj ctx p ortho psi j).T b a) ∧
      (∀ a b, b + 1 < a ∨ a + 1 < b → (ltraj ctx p ortho psi j).T a b = 0) ∧
      (∀ a, 0 ≤ (ltraj ctx p ortho psi j).T a (a + 1) ∧
        0 ≤ (ltraj ctx p ortho psi j).T (a + 1) a) := by
  induction j with
  | zero =>
    exact ⟨fun a b => rfl, fun a b _ => rfl, fun a => ⟨le_refl 0, le_refl 0⟩⟩
  | succ n ih =>
    obtain ⟨ihs, iht, ihn⟩ := ih
    obtain ⟨u, hu⟩ := fstep_beta_is_norm ctx p ortho n (ltraj ctx p ortho psi n)
    have hb : 0 ≤ (fstep ctx p ortho n (ltraj ctx p ortho psi n)).beta := by
      rw [hu]; exact hnorm u
    rw [ltraj_succ, fstep_T_form]
    split
    · refine ⟨?_, ?_, ?_⟩
      · intro a b
        simp only [mupd]
        split_ifs <;> first | rfl | omega | exact ihs a b
      · intro a b hab
        simp only [mupd]
        split_ifs <;> first | omega | exact iht a b hab
      · intro a
        constructor
        · simp only [mupd]
          split_ifs <;> first | exact hb | omega | exact (ihn a).1
        · simp only [mupd]
          split_ifs <;> first | exact hb | omega | exact (ihn a).2
    · refine ⟨?_, ?_, ?_⟩
      · intro a b
        simp only [mupd]
        split_ifs <;> first | rfl | omega | exact ihs a b
      · intro a b hab
        simp only [mupd]
        split_ifs <;> first | omega | exact iht a b hab
      · intro a
        constructor
        · simp only [mupd]
          split_ifs <;> first | omega | exact (ihn a).1
        · simp only [mupd]
          split_ifs <;> first | omega | exact (ihn a).2

/-- Claim C7 witness: a symmetry instance after three steps of a concrete
run (the hypothesis of the invariant theorem discharged concretely). -/
theorem c7_witness :
    (ltraj ctxSwap (defaultParams ℚ) [] ((1, 0) : ℚ × ℚ) 3).T 1 2 =
      (ltraj ctxSwap (defaultParams ℚ) [] ((1, 0) : ℚ × ℚ) 3).T 2 1 :=
  (c7_T_symmetric_tridiagonal ctxSwap (defaultParams ℚ) [] (1, 0)
    (fun v => add_nonneg (abs_nonneg v.1) (abs_nonneg v.2)) 3).1 1 2

/-- Claim C4: the forward pass exits at step `k` if and only if the break
condition (`beta` at or below the floor, or `k+1 ≥ N_min` together with one
of the two tolerance tests) holds at `k`, or `k + 1 = N_max`; at every
earlier step the condition fails (the iteration continued); when the exit is
due to `beta` falling below the floor the off-diagonal entry `T[k, k+1]` is
not written (it is still zero); and the run returns without error. -/
theorem c4_forward_exit_characterization (ctx : LCtx K V) (psi : V)
    (p : LanczosParams K) (ortho : List V)
    (hmax : 1 ≤ p.N_max) (hcache : 2 ≤ p.N_cache) :
    (stopCond p (ltraj ctx p ortho psi ((lForward ctx p ortho psi).1 + 1))
        (lForward ctx p ortho psi).1 ∨
      (lForward ctx p ortho psi).1 + 1 = p.N_max) ∧
      (∀ i, i < (lForward ctx p ortho psi).1 →
        ¬stopCond p (ltraj ctx p ortho psi (i + 1)) i) ∧
      (∀ j, (ltraj ctx p ortho psi (j + 1)).aboveULP = false →
        (ltraj ctx p ortho psi (j + 1)).T j (j + 1) = 0) ∧
      (okResult (lanczosMain ctx psi p ortho)).isSome = true := by
  obtain ⟨ke, hke, hbound, hstop, hminimal⟩ := lForward_spec ctx p ortho psi hmax
  refine ⟨?_, ?_, ?_, ?_⟩
  · rw [hke]
    exact hstop
  · rw [hke]
    exact hminimal
  · intro j habove
    rw [ltraj_succ] at habove ⊢
    rw [fstep_T_form, habove]
    simp only [Bool.false_eq_true, if_false]
    rw [mupd_ne _ _ _ _ _ _ (by omega)]
    exact ltraj_T_highzero ctx p ortho psi j j (j + 1) (by omega)
  · obtain ⟨r, hr⟩ := lanczosMain_ok ctx psi p ortho (by omega) (by omega)
    rw [hr]
    rfl

/-- Claim C4 witness: the exit disjunction at a concrete run. -/
theorem c4_witness :
    stopCond (defaultParams ℚ)
        (ltraj ctxZero (defaultParams ℚ) [] 2
          ((lForward ctxZero (defaultParams ℚ) [] 2).1 + 1))
        (lForward ctxZero (defaultParams ℚ) [] 2).1 ∨
      (lForward ctxZero (defaultParams ℚ) [] 2).1 + 1 =
        (defaultParams ℚ).N_max :=
  (c4_forward_exit_characterization ctxZero 2 (defaultParams ℚ) []
    (by decide) (by decide)).1

/-- The energy-difference state variable at a step `k ≥ 1`, in terms of the
previous and current lowest Ritz estimates. -/
theorem fstep_DeltaE0 (ctx : LCtx K V) (p : LanczosParams K) (ortho : List V)
    (k : Nat) (st : LState K V) (h : ¬k = 0) :
    (fstep ctx p ortho k st).DeltaE0 =
      (st.Es.getLastD fun _ => 0) 0 - (fstep ctx p ortho k st).ET 0 := by
  simp only [fstep, if_neg h]

/-- After any step the last stored eigenvalue row is the current one. -/
theorem ltraj_Es_getLast (ctx : LCtx K V) (p : LanczosParams K)
    (ortho : List V) (psi : V) (j : Nat) :
    (ltraj ctx p ortho psi (j + 1)).Es.getLastD (fun _ => 0) =
      (ltraj ctx p ortho psi (j + 1)).ET := by
  rw [ltraj_succ]
  by_cases h : j = 0
  · subst h
    simp [fstep, List.getLastD_concat]
  · simp [fstep, if_neg h, List.getLastD_concat]

/-- `Delta_E0` at step `k ≥ 1` is the signed difference between the previous
and the current lowest Ritz estimate. -/
theorem ltraj_DeltaE0_eq (ctx : LCtx K V) (p : LanczosParams K)
    (ortho : List V) (psi : V) (k : Nat) (hk : 1 ≤ k) :
    (ltraj ctx p ortho psi (k + 1)).DeltaE0 =
      (ltraj ctx p ortho psi k).ET 0 - (ltraj ctx p ortho psi (k + 1)).ET 0 := by
  have h0 : ¬k = 0 := by omega
  obtain ⟨m, rfl⟩ : ∃ m, k = m + 1 := ⟨k - 1, by omega⟩
  rw [ltraj_succ ctx p ortho psi (m + 1), fstep_DeltaE0 ctx p ortho (m + 1) _ h0,
    ltraj_Es_getLast ctx p ortho psi m]

/-- Claim C10: the successive-improvement test uses the signed difference.
If the run reaches a step `k ≥ 1` with `k + 1 ≥ N_min` at which the lowest
Ritz estimate increased relative to the previous step, then `Delta_E0` is
negative — hence below any non-negative `E_tol` — and the iteration stops at
exactly that step. -/
theorem c10_signed_improvement_stops (ctx : LCtx K V) (psi : V)
    (p : LanczosParams K) (ortho : List V) (k : Nat)
    (hmax : 1 ≤ p.N_max) (hk : 1 ≤ k)
    (hke : k ≤ (lForward ctx p ortho psi).1)
    (hmin : p.N_min ≤ k + 1) (hE : 0 ≤ p.E_tol)
    (hinc : (ltraj ctx p ortho psi k).ET 0 <
      (ltraj ctx p ortho psi (k + 1)).ET 0) :
    (ltraj ctx p ortho psi (k + 1)).DeltaE0 < 0 ∧
      (lForward ctx p ortho psi).1 = k := by
  have hDelta : (ltraj ctx p ortho psi (k + 1)).DeltaE0 < 0 := by
    rw [ltraj_DeltaE0_eq ctx p ortho psi k hk]
    exact sub_neg.mpr hinc
  refine ⟨hDelta, ?_⟩
  obtain ⟨ke, hkeq, hbound, hstop, hminimal⟩ := lForward_spec ctx p ortho psi hmax
  rw [hkeq] at hke ⊢
  have hke2 : k ≤ ke := hke
  show ke = k
  by_contra hne
  have hlt : k < ke := by omega
  exact hminimal k hlt (Or.inr ⟨hmin, Or.inr (lt_of_lt_of_le hDelta hE)⟩)

/-- Claim C10 witness: with the coordinate-swap operator and a dummy
eigensolver whose lowest estimate increases every step, the run stops at
step 1. -/
theorem c10_witness :
    (ltraj ctxSwap (defaultParams ℚ) [] ((1, 0) : ℚ × ℚ) 2).DeltaE0 < 0 ∧
      (lForward ctxSwap (defaultParams ℚ) [] ((1, 0) : ℚ × ℚ)).1 = 1 :=
  c10_signed_improvement_stops ctxSwap (1, 0) (defaultParams ℚ) [] 1
    (by decide) (by decide) (by with_unfolding_all decide) (by decide)
    (by with_unfolding_all decide) (by with_unfolding_all decide)

/-!
## Orthonormality of the Gram-Schmidt output (claim C8)

Here `norm` and `inner` are assumed to satisfy the inner-product-space
contract of the external vector type (symmetry, linearity in the second
argument, `norm² = inner self`, non-negativity); `np.real` is the identity
in this real-scalar model, so no conjugation appears.
-/

/-- Right-linearity over subtracting a scaled vector. -/
theorem inner_sub_smul (inner : V → V → K)
    (haddr : ∀ a b c : V, inner a (b + c) = inner a b + inner a c)
    (hsmulr : ∀ (t : K) (a b : V), inner a (t • b) = t * inner a b)
    (z u q : V) (c : K) :
    inner z (u - c • q) = inner z u - c * inner z q := by
  have h1 : u - c • q = u + (-c) • q := by
    rw [neg_smul, sub_eq_add_neg]
  rw [h1, haddr, hsmulr]
  ring

/-- Two non-negative scalars with equal squares are equal. -/
theorem sq_eq_of_nonneg {x y : K} (hx : 0 ≤ x) (hy : 0 ≤ y)
    (h : x ^ 2 = y ^ 2) : x = y := by
  by_contra hne
  rcases lt_or_gt_of_ne hne with hlt | hgt
  · have hx2 : x ^ 2 < y ^ 2 := by nlinarith
    exact absurd h (ne_of_lt hx2)
  · have hy2 : y ^ 2 < x ^ 2 := by nlinarith
    exact absurd h.symm (ne_of_lt hy2)

/-- Homogeneity of the norm, derived from the inner-product contract. -/
theorem norm_smul_of_inner (norm : V → K) (inner : V → V → K)
    (hsymm : ∀ a b, inner a b = inner b a)
    (hsmulr : ∀ (t : K) (a b : V), inner a (t • b) = t * inner a b)
    (hnormsq : ∀ a, norm a ^ 2 = inner a a)
    (hnn : ∀ a, 0 ≤ norm a) (t : K) (v : V) :
    norm (t • v) = |t| * norm v := by
  have h2 : norm (t • v) ^ 2 = (|t| * norm v) ^ 2 := by
    rw [hnormsq, hsmulr t (t • v) v, hsymm (t • v) v, hsmulr t v v,
      ← hnormsq, mul_pow, sq_abs]
    ring
  exact sq_eq_of_nonneg (hnn _) (mul_nonneg (abs_nonneg t) (hnn v)) h2

/-- Vectors orthogonal to `z` stay orthogonal to `z` through the
orthonormalizer (its operations are scalings and subtractions of members). -/
theorem gsAux_inner_keep (norm : V → K) (inner : V → V → K) (rcond : K)
    (haddr : ∀ a b c : V, inner a (b + c) = inner a b + inner a c)
    (hsmulr : ∀ (t : K) (a b : V), inner a (t • b) = t * inner a b)
    (z : V) :
    ∀ (fuel : Nat) (l : List V) (j : Nat) (ov : Nat → Nat → K),
      (∀ u ∈ l, inner z u = 0) →
      ∀ u1 ∈ (gsAux norm inner rcond fuel l j ov).1, inner z u1 = 0
  | fuel, [], j, ov, hz => by
    cases fuel <;> simp [gsAux]
  | 0, v :: rest, j, ov, hz => by simp [gsAux]
  | fuel + 1, v :: rest, j, ov, hz => by
    simp only [gsAux]
    by_cases hn : norm v > rcond
    · rw [if_pos hn]
      intro u1 hu1
      rcases List.mem_cons.mp hu1 with h | h
      · rw [h, hsmulr, hz v (List.mem_cons_self v rest), mul_zero]
      · refine gsAux_inner_keep norm inner rcond haddr hsmulr z fuel
          (gsProj inner ((norm v)⁻¹ • v) j rest (j + 1)
            (mupd ov j j (norm v))).1 (j + 1) _ ?_ u1 h
        rw [gsProj_fst]
        intro u hu
        rcases List.mem_map.mp hu with ⟨x, hx, rfl⟩
        rw [inner_sub_smul inner haddr hsmulr,
          hz x (List.mem_cons_of_mem v hx), hsmulr,
          hz v (List.mem_cons_self v rest), mul_zero, mul_zero, sub_zero]
    · rw [if_neg hn]
      exact gsAux_inner_keep norm inner rcond haddr hsmulr z fuel rest (j + 1)
        _ (fun u hu => hz u (List.mem_cons_of_mem v hu))

/-- The survivors of the orthonormalizer are pairwise orthogonal and of
unit norm (in exact arithmetic, under the inner-product contract). -/
theorem gsAux_orthonormal (norm : V → K) (inner : V → V → K) (rcond : K)
    (hsymm : ∀ a b, inner a b = inner b a)
    (haddr : ∀ a b c : V, inner a (b + c) = inner a b + inner a c)
    (hsmulr : ∀ (t : K) (a b : V), inner a (t • b) = t * inner a b)
    (hnormsq : ∀ a, norm a ^ 2 = inner a a)
    (hnn : ∀ a, 0 ≤ norm a) (hrc : 0 ≤ rcond) :
    ∀ (fuel : Nat) (l : List V) (j : Nat) (ov : Nat → Nat → K),
      ((gsAux norm inner rcond fuel l j ov).1.Pairwise
        fun a b => inner a b = 0) ∧
        ∀ v1 ∈ (gsAux norm inner rcond fuel l j ov).1, norm v1 = 1
  | fuel, [], j, ov => by cases fuel <;> simp [gsAux]
  | 0, v :: rest, j, ov => by simp [gsAux]
  | fuel + 1, v :: rest, j, ov => by
    simp only [gsAux]
    by_cases hn : norm v > rcond
    · rw [if_pos hn]
      have hnpos : 0 < norm v := lt_of_le_of_lt hrc hn
      have hq1 : norm ((norm v)⁻¹ • v) = 1 := by
        rw [norm_smul_of_inner norm inner hsymm hsmulr hnormsq hnn,
          abs_of_pos (inv_pos.mpr hnpos), inv_mul_cancel₀ (ne_of_gt hnpos)]
      have hqq : inner ((norm v)⁻¹ • v) ((norm v)⁻¹ • v) = 1 := by
        rw [← hnormsq, hq1, one_pow]
      have hqorth : ∀ u ∈ (gsProj inner ((norm v)⁻¹ • v) j rest (j + 1)
          (mupd ov j j (norm v))).1,
          inner ((norm v)⁻¹ • v) u = 0 := by
        rw [gsProj_fst]
        intro u hu
        rcases List.mem_map.mp hu with ⟨x, hx, rfl⟩
        rw [inner_sub_smul inner haddr hsmulr, hqq, mul_one, sub_self]
      obtain ⟨ihp, ihu⟩ := gsAux_orthonormal norm inner rcond hsymm haddr
        hsmulr hnormsq hnn hrc fuel
        (gsProj inner ((norm v)⁻¹ • v) j rest (j + 1) (mupd ov j j (norm v))).1
        (j + 1) _
      refine ⟨List.pairwise_cons.mpr ⟨?_, ihp⟩, ?_⟩
      · intro b hb
        exact gsAux_inner_keep norm inner rcond haddr hsmulr _ fuel _ (j + 1)
          _ hqorth b hb
      · intro v1 hv1
        rcases List.mem_cons.mp hv1 with h | h
        · rw [h]; exact hq1
        · exact ihu v1 h
    · rw [if_neg hn]
      exact gsAux_orthonormal norm inner rcond hsymm haddr hsmulr hnormsq hnn
        hrc fuel rest (j + 1) _

/-- When the pivot is orthogonal to every later vector, the inner loop
writes only zeros into the overlap record. -/
theorem gsProj_snd_zero (inner : V → V → K) (q : V) (j : Nat) :
    ∀ (l : List V) (i : Nat) (ov : Nat → Nat → K),
      (∀ u ∈ l, inner q u = 0) →
      ∀ a b, (gsProj inner q j l i ov).2 a b =
        if a = j ∧ i ≤ b ∧ b < i + l.length then 0 else ov a b
  | [], i, ov, h => by
    intro a b
    simp only [gsProj, List.length_nil]
    rw [if_neg (by omega)]
  | v :: rest, i, ov, h => by
    intro a b
    simp only [gsProj, List.length_cons]
    rw [gsProj_snd_zero inner q j rest (i + 1) _
      (fun u hu => h u (List.mem_cons_of_mem v hu)) a b]
    rw [h v (List.mem_cons_self v rest)]
    simp only [mupd]
    split_ifs <;> first | rfl | omega

/-- Running the orthonormalizer on an already orthonormal list returns the
list unchanged, with an overlap record holding ones on its diagonal and
zeros elsewhere in the processed block. -/
theorem gsAux_fix (norm : V → K) (inner : V → V → K) (rcond : K)
    (hrc1 : rcond < 1) :
    ∀ (fuel : Nat) (l : List V) (j : Nat) (ov : Nat → Nat → K),
      l.length ≤ fuel →
      (l.Pairwise fun a b => inner a b = 0) →
      (∀ v ∈ l, norm v = 1) →
      (gsAux norm inner rcond fuel l j ov).1 = l ∧
        ∀ a b, (gsAux norm inner rcond fuel l j ov).2 a b =
          if a = b ∧ j ≤ a ∧ a < j + l.length then 1
          else if j ≤ a ∧ a < b ∧ b < j + l.length then 0
          else ov a b
  | fuel, [], j, ov, _, _, _ => by
    refine ⟨by cases fuel <;> rfl, ?_⟩
    intro a b
    have h1 : (gsAux norm inner rcond fuel ([] : List V) j ov).2 = ov := by
      cases fuel <;> rfl
    rw [h1]
    simp only [List.length_nil]
    rw [if_neg (by omega), if_neg (by omega)]
  | 0, v :: rest, j, ov, hlen, _, _ => by simp at hlen
  | fuel + 1, v :: rest, j, ov, hlen, hpw, hunit => by
    have hv1 : norm v = 1 := hunit v (List.mem_cons_self v rest)
    have hpwc := List.pairwise_cons.mp hpw
    simp only [gsAux, hv1]
    rw [if_pos (show rcond < (1 : K) from hrc1)]
    have hq : (1 : K)⁻¹ • v = v := by rw [inv_one, one_smul]
    rw [hq]
    have hpr1 : (gsProj inner v j rest (j + 1) (mupd ov j j 1)).1 = rest := by
      rw [gsProj_fst]
      have hid : ∀ u ∈ rest, u - inner v u • v = u := by
        intro u hu
        rw [hpwc.1 u hu, zero_smul, sub_zero]
      calc rest.map (fun u => u - inner v u • v)
        _ = rest.map id := List.map_congr_left (fun u hu => hid u hu)
        _ = rest := List.map_id rest
    rw [hpr1]
    obtain ⟨ih1, ih2⟩ := gsAux_fix norm inner rcond hrc1 fuel rest (j + 1) _
      (by simpa using hlen) hpwc.2
      (fun u hu => hunit u (List.mem_cons_of_mem v hu))
    refine ⟨by rw [ih1], ?_⟩
    intro a b
    rw [ih2 a b, gsProj_snd_zero inner v j rest (j + 1) _ hpwc.1 a b]
    simp only [mupd, List.length_cons]
    split_ifs <;> first | rfl | omega

/-- The overlap-record entry of an orthonormalizer result, if any. -/
def ovEntry (res : Option (List V × (Nat → Nat → K))) (a b : Nat) :
    Option K :=
  res.map fun pr => pr.2 a b

/-- Claim C8 (counterexample): the empty list is a survivor output of
`gram_schmidt` (e.g. from the all-zero input `[0]`), but running
`gram_schmidt` on it again fails with an index error (cf. C5) instead of
returning the same (empty) list with a 0×0 overlap record. -/
theorem c8_counterexample :
    (gram_schmidt normQ innerQ [(0 : ℚ)] 0).map Prod.fst = some [] ∧
      gram_schmidt normQ innerQ ([] : List ℚ) 0 = none := by
  constructor
  · with_unfolding_all decide
  · rfl

/-- Claim C8 (amended): for every *nonempty* survivor output `vs` of
`gram_schmidt` (under the inner-product contract for `norm`/`inner` and a
cutoff `0 ≤ rcond < 1`), running `gram_schmidt` again returns the same
vectors unchanged, with an overlap record equal to the identity on the
processed block. -/
theorem c8_idempotent_nonempty (norm : V → K) (inner : V → V → K) (rcond : K)
    (ws vs : List V)
    (hsymm : ∀ a b, inner a b = inner b a)
    (haddr : ∀ a b c : V, inner a (b + c) = inner a b + inner a c)
    (hsmulr : ∀ (t : K) (a b : V), inner a (t • b) = t * inner a b)
    (hnormsq : ∀ a, norm a ^ 2 = inner a a)
    (hnn : ∀ a, 0 ≤ norm a)
    (hrc0 : 0 ≤ rcond) (hrc1 : rcond < 1)
    (hws : (gram_schmidt norm inner ws rcond).map Prod.fst = some vs)
    (hne : vs ≠ []) :
    (gram_schmidt norm inner vs rcond).map Prod.fst = some vs ∧
      ∀ a b, a < vs.length → b < vs.length →
        ovEntry (gram_schmidt norm inner vs rcond) a b =
          some (if a = b then 1 else 0) := by
  have horth : (vs.Pairwise fun a b => inner a b = 0) ∧
      ∀ v ∈ vs, norm v = 1 := by
    cases ws with
    | nil => simp [gram_schmidt] at hws
    | cons w l =>
      simp only [gram_schmidt, Option.map_some'] at hws
      have h := Option.some.inj hws
      rw [← h]
      exact gsAux_orthonormal norm inner rcond hsymm haddr hsmulr hnormsq hnn
        hrc0 _ _ _ _
  obtain ⟨hpw, hunit⟩ := horth
  cases vs with
  | nil => exact absurd rfl hne
  | cons v l =>
    obtain ⟨h1, h2⟩ := gsAux_fix norm inner rcond hrc1 (v :: l).length (v :: l)
      0 (fun _ _ => 0) (le_refl _) hpw hunit
    simp only [List.length_cons] at h1 h2
    constructor
    · simp [gram_schmidt, h1]
    · intro a b ha hb
      simp only [gram_schmidt, ovEntry, Option.map_some', Option.some.injEq]
      simp only [List.length_cons] at ha hb ⊢
      rw [h2 a b]
      split_ifs <;> first | rfl | omega

/-- Claim C8 witness: the survivor output `[1]` of `gram_schmidt` on `[2]`
is a fixed point with an identity overlap block. -/
theorem c8_witness :
    (gram_schmidt normQ innerQ [(1 : ℚ)] 0).map Prod.fst = some [1] :=
  (c8_idempotent_nonempty normQ innerQ 0 [2] [1]
    (fun a b => mul_comm a b)
    (fun a b c => mul_add a b c)
    (fun t a b => mul_left_comm a t b)
    (fun a => (sq_abs a).trans (pow_two a))
    (fun a => abs_nonneg a)
    (le_refl 0) (by norm_num)
    (by with_unfolding_all decide)
    (by simp)).1

/-!
## Cache contents (claim C1)

With capacity at least the number of pushes the FIFO cache never evicts;
with capacity 2 it holds exactly the last two pushed vectors.  `lastN n l`
is the suffix of the last `n` elements.
-/

/-- The last `n` elements of a list. -/
def lastN (n : Nat) (l : List α) : List α := l.drop (l.length - n)

theorem lastN_length (n : Nat) (l : List α) :
    (lastN n l).length = min n l.length := by
  simp only [lastN, List.length_drop]
  omega

/-- Pushing below capacity appends without eviction. -/
theorem toCache_no_evict (v : V) (l : List V) (N : Nat)
    (h : l.length + 1 ≤ N) : toCache v l N = l ++ [v] := by
  simp only [toCache]
  rw [if_neg (by simp; omega)]

/-- Pushing into the two-element suffix cache tracks the suffix of the
uncapped pushes. -/
theorem toCache_lastN (v : V) (l : List V) :
    toCache v (lastN 2 l) 2 = lastN 2 (l ++ [v]) := by
  by_cases hm : l.length ≤ 1
  · have h2 : lastN 2 l = l := by
      simp only [lastN]
      rw [show l.length - 2 = 0 by omega, List.drop_zero]
    rw [h2]
    simp only [toCache, lastN]
    rw [if_neg (by simp; omega),
      show (l ++ [v]).length - 2 = 0 by simp; omega, List.drop_zero]
  · simp only [toCache, lastN, List.length_drop]
    rw [if_pos (by simp; omega)]
    have hd : (l.drop (l.length - 2)).tail = l.drop (l.length - 1) := by
      rw [List.tail_drop]
      congr 1
      omega
    rw [List.tail_append_of_ne_nil, hd]
    · rw [show (l ++ [v]).length - 2 = l.length - 1 by
        simp only [List.length_append, List.length_cons, List.length_nil]
        omega]
      rw [List.drop_append_of_le_length (by omega)]
    · intro hnil
      have := congrArg List.length hnil
      simp [List.length_drop] at this
      omega

/-- The two-element suffix of an appended list. -/
theorem lastN_two_concat (l : List α) (v : α) :
    lastN 2 (l ++ [v]) = lastN 1 l ++ [v] := by
  simp only [lastN, List.length_append, List.length_cons, List.length_nil]
  rw [show l.length + 1 - 2 = l.length - 1 by omega,
    List.drop_append_of_le_length (by omega)]

/-- Reading the most recent cache entry. -/
theorem getD_concat_last (l : List α) (v d : α) :
    (l ++ [v]).getD ((l ++ [v]).length - 1) d = v := by
  rw [show (l ++ [v]).length - 1 = l.length by simp]
  rw [List.getD_eq_getElem?_getD, List.getElem?_concat_length]
  rfl

/-- The second-most-recent entry of the suffix cache agrees with the
second-most-recent entry of the uncapped cache. -/
theorem getD_concat_len2 (l : List α) (v d : α) :
    (lastN 1 l ++ [v]).getD ((lastN 1 l ++ [v]).length - 2) d =
      (l ++ [v]).getD ((l ++ [v]).length - 2) d := by
  cases l with
  | nil => rfl
  | cons x xs =>
    have hlen : (lastN 1 (x :: xs)).length = 1 := by
      rw [lastN_length]; simp
    rw [show (lastN 1 (x :: xs) ++ [v]).length - 2 = 0 by simp [hlen],
      show ((x :: xs) ++ [v]).length - 2 = (x :: xs).length - 1 by
        simp only [List.length_append, List.length_cons, List.length_nil]
        omega]
    rw [List.getD_eq_getElem?_getD, List.getD_eq_getElem?_getD]
    rw [List.getElem?_append_left (by omega),
      List.getElem?_append_left (by simp)]
    simp only [lastN]
    rw [List.getElem?_drop, Nat.add_zero]

/-- The second-most-recent entry of an uncapped push is the last entry
before the push. -/
theorem getD_concat_len2_of_ne (l : List α) (v d : α) (hne : l ≠ []) :
    (l ++ [v]).getD ((l ++ [v]).length - 2) d =
      l.getD (l.length - 1) d := by
  have hl : 1 ≤ l.length := by
    cases l with
    | nil => exact absurd rfl hne
    | cons a t => simp
  rw [show (l ++ [v]).length - 2 = l.length - 1 by
    simp only [List.length_append, List.length_cons, List.length_nil]
    omega]
  rw [List.getD_eq_getElem?_getD, List.getD_eq_getElem?_getD,
    List.getElem?_append_left (by omega)]

/-- The cache after a step, for any branch. -/
theorem fstep_cache_eq (ctx : LCtx K V) (p : LanczosParams K) (ortho : List V)
    (k : Nat) (st : LState K V) :
    (fstep ctx p ortho k st).cache =
      toCache (st.beta⁻¹ • st.w) st.cache p.N_cache := by
  by_cases hk : k = 0
  · subst hk; rfl
  · simp only [fstep]
    rw [if_neg hk]

/-- One forward step commutes with restricting the cache to its two-element
suffix: a run with `N_cache = 2` tracks a non-evicting run exactly, except
that its cache holds only the last two pushed vectors. -/
theorem fstep_lastN (ctx : LCtx K V) (p : LanczosParams K) (c : Nat)
    (ortho : List V) (k : Nat) (s : LState K V)
    (hc : s.cache.length + 1 ≤ c) :
    fstep ctx { p with N_cache := 2 } ortho k
        { s with cache := lastN 2 s.cache } =
      { fstep ctx { p with N_cache := c } ortho k s with
          cache := lastN 2 (fstep ctx { p with N_cache := c } ortho k s).cache } := by
  have hA1 : toCache (s.beta⁻¹ • s.w) s.cache c = s.cache ++ [s.beta⁻¹ • s.w] :=
    toCache_no_evict _ _ _ hc
  by_cases hk : k = 0 <;>
  · simp only [fstep, hk, if_true, if_false, reduceIte]
    rw [toCache_lastN, hA1, lastN_two_concat]
    simp only [getD_concat_last, getD_concat_len2]

/-- The diagonal coefficient computed at a non-evicting step, in terms of
the newly pushed basis vector. -/
theorem fstep_alpha_eval (ctx : LCtx K V) (p : LanczosParams K)
    (ortho : List V) (k : Nat) (st : LState K V)
    (hpush : toCache (st.beta⁻¹ • st.w) st.cache p.N_cache =
      st.cache ++ [st.beta⁻¹ • st.w]) :
    (fstep ctx p ortho k st).alpha =
      ctx.inner
        (projOut ctx.inner ortho.reverse
          (ctx.matvec (projOut ctx.inner ortho (st.beta⁻¹ • st.w))))
        (st.beta⁻¹ • st.w) := by
  by_cases hk : k = 0 <;>
  · simp only [fstep, hk, if_true, if_false, reduceIte]
    rw [hpush]
    simp only [getD_concat_last]

/-- The residual vector after a non-evicting step: the projected operator
application minus the recurrence contributions, with the second-most-recent
basis vector read from the cache. -/
theorem fstep_w_eval (ctx : LCtx K V) (p : LanczosParams K)
    (ortho : List V) (k : Nat) (st : LState K V)
    (hpush : toCache (st.beta⁻¹ • st.w) st.cache p.N_cache =
      st.cache ++ [st.beta⁻¹ • st.w]) :
    (fstep ctx p ortho k st).w =
      (if 0 < k then
        projOut ctx.inner ortho.reverse
            (ctx.matvec (projOut ctx.inner ortho (st.beta⁻¹ • st.w))) -
          st.beta • (st.cache ++ [st.beta⁻¹ • st.w]).getD
            ((st.cache ++ [st.beta⁻¹ • st.w]).length - 2) 0
      else
        projOut ctx.inner ortho.reverse
          (ctx.matvec (projOut ctx.inner ortho (st.beta⁻¹ • st.w)))) -
        (fstep ctx p ortho k st).alpha • (st.beta⁻¹ • st.w) := by
  rw [fstep_alpha_eval ctx p ortho k st hpush]
  by_cases hk : k = 0 <;>
  · simp only [fstep, hk, if_true, if_false, reduceIte]
    rw [hpush]
    simp only [getD_concat_last]

/-- The `beta` of the state after a non-evicting step is the norm of that
step's residual. -/
theorem fstep_beta_eval (ctx : LCtx K V) (p : LanczosParams K)
    (ortho : List V) (k : Nat) (st : LState K V) :
    (fstep ctx p ortho k st).beta = ctx.norm ((fstep ctx p ortho k st).w) := by
  by_cases hk : k = 0 <;>
  · simp only [fstep, hk, if_true, if_false, reduceIte]

/-- The Krylov basis vector pushed into the cache at step `i` (the working
vector normalized at the start of that step). -/
def pushVec (ctx : LCtx K V) (p : LanczosParams K) (ortho : List V) (psi : V)
    (i : Nat) : V :=
  (ltraj ctx p ortho psi i).beta⁻¹ • (ltraj ctx p ortho psi i).w

/-- With capacity at least the iteration ceiling, the cache never evicts:
after `j` steps it holds exactly the `j` pushed basis vectors in order. -/
theorem ltraj_cache_full (ctx : LCtx K V) (p : LanczosParams K)
    (ortho : List V) (psi : V) (hcap : p.N_max ≤ p.N_cache) :
    ∀ j, j ≤ p.N_max →
      (ltraj ctx p ortho psi j).cache =
        (List.range j).map (pushVec ctx p ortho psi)
  | 0, _ => rfl
  | j + 1, hj => by
    rw [ltraj_succ, fstep_cache_eq,
      ltraj_cache_full ctx p ortho psi hcap j (by omega)]
    rw [toCache_no_evict _ _ _ (by
      rw [List.length_map, List.length_range]
      omega)]
    rw [List.range_succ, List.map_append]
    rfl

/-- Reading a cache entry of the non-evicting run. -/
theorem ltraj_cache_getD (ctx : LCtx K V) (p : LanczosParams K)
    (ortho : List V) (psi : V) (hcap : p.N_max ≤ p.N_cache)
    (j : Nat) (hj : j ≤ p.N_max) (i : Nat) (hi : i < j) :
    (ltraj ctx p ortho psi j).cache.getD i 0 = pushVec ctx p ortho psi i := by
  rw [ltraj_cache_full ctx p ortho psi hcap j hj,
    List.getD_eq_getElem?_getD, List.getElem?_map, List.getElem?_range hi]
  rfl

/-- Claim C1, forward-pass invariant: the `N_cache = 2` run's state equals
the non-evicting run's state with the cache restricted to its two-element
suffix. -/
theorem c1_traj (ctx : LCtx K V) (p : LanczosParams K) (ortho : List V)
    (psi : V) (c : Nat) (hcmax : p.N_max ≤ c) :
    ∀ j, j ≤ p.N_max →
      ltraj ctx { p with N_cache := 2 } ortho psi j =
        { ltraj ctx { p with N_cache := c } ortho psi j with
            cache := lastN 2 (ltraj ctx { p with N_cache := c } ortho psi j).cache }
  | 0, _ => rfl
  | j + 1, hj => by
    rw [ltraj_succ, ltraj_succ, c1_traj ctx p ortho psi c hcmax j (by omega)]
    exact fstep_lastN ctx p c ortho j _ (by
      rw [ltraj_cache_full ctx { p with N_cache := c } ortho psi
        (by exact hcmax) j (show j ≤ p.N_max by omega)]
      rw [List.length_map, List.length_range]
      omega)

/-- Claim C1, exit equality: both runs leave the forward pass at the same
step. -/
theorem c1_exit (ctx : LCtx K V) (p : LanczosParams K) (ortho : List V)
    (psi : V) (c : Nat) (hcmax : p.N_max ≤ c) (hmax : 1 ≤ p.N_max) :
    (lForward ctx { p with N_cache := 2 } ortho psi).1 =
      (lForward ctx { p with N_cache := c } ortho psi).1 := by
  obtain ⟨k1, he1, hb1, hs1, hm1⟩ :=
    lForward_spec ctx { p with N_cache := 2 } ortho psi hmax
  obtain ⟨k2, he2, hb2, hs2, hm2⟩ :=
    lForward_spec ctx { p with N_cache := c } ortho psi hmax
  rw [he1, he2]
  show k1 = k2
  have hiff : ∀ i, i + 1 ≤ p.N_max →
      (stopCond { p with N_cache := 2 }
          (ltraj ctx { p with N_cache := 2 } ortho psi (i + 1)) i ↔
        stopCond { p with N_cache := c }
          (ltraj ctx { p with N_cache := c } ortho psi (i + 1)) i) := by
    intro i hi
    rw [c1_traj ctx p ortho psi c hcmax (i + 1) hi]
    exact Iff.rfl
  have hN1 : ({ p with N_cache := 2 } : LanczosParams K).N_max = p.N_max := rfl
  have hN2 : ({ p with N_cache := c } : LanczosParams K).N_max = p.N_max := rfl
  rw [hN1] at hb1 hs1
  rw [hN2] at hb2 hs2
  by_contra hne
  rcases Nat.lt_or_ge k1 k2 with hlt | hge
  · rcases hs1 with hs | hs
    · exact hm2 k1 hlt ((hiff k1 (by omega)).mp hs)
    · omega
  · have hlt : k2 < k1 := by omega
    rcases hs2 with hs | hs
    · exact hm1 k2 hlt ((hiff k2 (by omega)).mpr hs)
    · omega

/-!
## Finite sums of vectors (for the reconstruction pass)

`segSum f a m = f a + f (a+1) + ... + f (a+m-1)`.
-/

/-- Sum of `m` consecutive values of `f` starting at index `a`. -/
def segSum (f : Nat → V) (a : Nat) : Nat → V
  | 0 => 0
  | m + 1 => segSum f a m + f (a + m)

theorem segSum_congr (f g : Nat → V) :
    ∀ (m a : Nat), (∀ i, a ≤ i → i < a + m → f i = g i) →
      segSum f a m = segSum g a m
  | 0, _, _ => rfl
  | m + 1, a, h => by
    show segSum f a m + f (a + m) = segSum g a m + g (a + m)
    rw [segSum_congr f g m a (fun i h1 h2 => h i h1 (by omega)),
      h (a + m) (by omega) (by omega)]

theorem segSum_front (f : Nat → V) :
    ∀ (m a : Nat), segSum f a (m + 1) = f a + segSum f (a + 1) m
  | 0, a => by simp [segSum]
  | m + 1, a => by
    show segSum f a (m + 1) + f (a + (m + 1)) = f a + segSum f (a + 1) (m + 1)
    rw [segSum_front f m a,
      show segSum f (a + 1) (m + 1) = segSum f (a + 1) m + f (a + 1 + m) from rfl,
      show a + (m + 1) = a + 1 + m by omega, add_assoc]

/-- The accumulation loop of `cacheComb` as a sum. -/
theorem foldl_add_segSum (g : Nat → V) (init : V) :
    ∀ m, (List.range' 1 m).foldl (fun acc k => acc + g k) init =
      init + segSum g 1 m
  | 0 => by
    show init = init + segSum g 1 0
    rw [segSum, add_zero]
  | m + 1 => by
    rw [List.range'_concat, List.foldl_append, foldl_add_segSum g init m]
    simp only [one_mul]
    show init + segSum g 1 m + g (1 + m) = init + segSum g 1 (m + 1)
    rw [show segSum g 1 (m + 1) = segSum g 1 m + g (1 + m) from rfl, add_assoc]

/-- Reversing the direction of summation. -/
theorem segSum_rev (f : Nat → V) (N : Nat) :
    ∀ m, m ≤ N - 1 →
      segSum (fun k => f (N - k)) 1 m = segSum f (N - m) m
  | 0, _ => rfl
  | m + 1, hm => by
    show segSum (fun k => f (N - k)) 1 m + f (N - (1 + m)) =
      segSum f (N - (m + 1)) (m + 1)
    rw [segSum_rev f N m (by omega), segSum_front f m (N - (m + 1)),
      show N - (m + 1) + 1 = N - m by omega,
      show N - (1 + m) = N - (m + 1) by omega, add_comm]

/-- Reading inside the suffix cache. -/
theorem lastN_getD (l : List α) (d : α) (i n : Nat) :
    (lastN n l).getD i d = l.getD (l.length - n + i) d := by
  simp only [lastN]
  rw [List.getD_eq_getElem?_getD, List.getD_eq_getElem?_getD,
    List.getElem?_drop]

/-- While the loop keeps running, `beta` stays above the floor. -/
theorem ltraj_above (ctx : LCtx K V) (q : LanczosParams K) (ortho : List V)
    (psi : V) (ke : Nat)
    (hm : ∀ i, i < ke → ¬stopCond q (ltraj ctx q ortho psi (i + 1)) i)
    (m : Nat) (hmke : m < ke) :
    (ltraj ctx q ortho psi (m + 1)).aboveULP = true := by
  cases h : (ltraj ctx q ortho psi (m + 1)).aboveULP with
  | false => exact absurd (Or.inl h) (hm m hmke)
  | true => rfl

/-- The final `T` returns each step's diagonal coefficient. -/
theorem ltraj_T_diag (ctx : LCtx K V) (q : LanczosParams K) (ortho : List V)
    (psi : V) (m j : Nat) (hj : m + 1 ≤ j) :
    (ltraj ctx q ortho psi j).T m m = (ltraj ctx q ortho psi (m + 1)).alpha := by
  rw [(ltraj_T_stable ctx q ortho psi m j hj).1,
    (ltraj_T_written ctx q ortho psi m).1]

/-- The final `T` returns each completed step's off-diagonal coefficient,
which is the `beta` of the state after that step. -/
theorem ltraj_T_off (ctx : LCtx K V) (q : LanczosParams K) (ortho : List V)
    (psi : V) (ke : Nat)
    (hm : ∀ i, i < ke → ¬stopCond q (ltraj ctx q ortho psi (i + 1)) i)
    (m j : Nat) (hmke : m < ke) (hj : m + 1 ≤ j) :
    (ltraj ctx q ortho psi j).T m (m + 1) =
      (ltraj ctx q ortho psi (m + 1)).beta := by
  rw [(ltraj_T_stable ctx q ortho psi m j hj).2,
    (ltraj_T_written ctx q ortho psi m).2
      (ltraj_above ctx q ortho psi ke hm m hmke)]

/-- The restart-replay loop regenerates the evicted Krylov basis vectors
exactly: after `m` replay iterations (`m` at most `N - 3`), the rolling
vectors hold the `m`-th and `(m-1)`-th basis vectors, the rolling
coefficient holds `T[m-1, m]`, and the accumulator has gained the
contributions of basis vectors `1 … m`. -/
theorem c1_replay (ctx : LCtx K V) (q : LanczosParams K) (ortho : List V)
    (psi : V) (hcap : q.N_max ≤ q.N_cache) (ke : Nat)
    (hb : ke + 1 ≤ q.N_max)
    (hm : ∀ i, i < ke → ¬stopCond q (ltraj ctx q ortho psi (i + 1)) i)
    (r0 : RState K V) (hq1 : r0.q1 = pushVec ctx q ortho psi 0) :
    ∀ m, m + 3 ≤ ke + 1 →
      (List.range m).foldl
          (rstep ctx ortho (ltraj ctx q ortho psi (ke + 1)).T
            (ltraj ctx q ortho psi (ke + 1)).vT) r0 =
        { q0 := if m = 0 then r0.q0 else pushVec ctx q ortho psi (m - 1),
          q1 := pushVec ctx q ortho psi m,
          beta := if m = 0 then r0.beta
            else (ltraj ctx q ortho psi (ke + 1)).T (m - 1) m,
          psi0 := r0.psi0 + segSum
            (fun i => (ltraj ctx q ortho psi (ke + 1)).vT i 0 •
              pushVec ctx q ortho psi i) 1 m } := by
  intro m
  induction m with
  | zero =>
    intro _
    simp only [List.range_zero, List.foldl_nil, reduceIte]
    rw [show segSum (fun i => (ltraj ctx q ortho psi (ke + 1)).vT i 0 •
      pushVec ctx q ortho psi i) 1 0 = 0 from rfl, add_zero, ← hq1]
  | succ m ih =>
    intro hmke
    rw [List.range_succ, List.foldl_append, ih (by omega),
      List.foldl_cons, List.foldl_nil]
    have hmlt : m < ke := by omega
    have hTd : (ltraj ctx q ortho psi (ke + 1)).T m m =
        (ltraj ctx q ortho psi (m + 1)).alpha :=
      ltraj_T_diag ctx q ortho psi m (ke + 1) (by omega)
    have hTo : (ltraj ctx q ortho psi (ke + 1)).T m (m + 1) =
        (ltraj ctx q ortho psi (m + 1)).beta :=
      ltraj_T_off ctx q ortho psi ke hm m (ke + 1) hmlt (by omega)
    have hlenm : (ltraj ctx q ortho psi m).cache.length = m := by
      rw [ltraj_cache_full ctx q ortho psi hcap m (by omega),
        List.length_map, List.length_range]
    have hpush : toCache ((ltraj ctx q ortho psi m).beta⁻¹ •
          (ltraj ctx q ortho psi m).w) (ltraj ctx q ortho psi m).cache
          q.N_cache =
        (ltraj ctx q ortho psi m).cache ++
          [(ltraj ctx q ortho psi m).beta⁻¹ • (ltraj ctx q ortho psi m).w] :=
      toCache_no_evict _ _ _ (by omega)
    have hw : (ltraj ctx q ortho psi (m + 1)).w =
        (if 0 < m then
          projOut ctx.inner ortho.reverse
              (ctx.matvec (projOut ctx.inner ortho
                ((ltraj ctx q ortho psi m).beta⁻¹ •
                  (ltraj ctx q ortho psi m).w))) -
            (ltraj ctx q ortho psi m).beta •
              ((ltraj ctx q ortho psi m).cache ++
                  [(ltraj ctx q ortho psi m).beta⁻¹ •
                    (ltraj ctx q ortho psi m).w]).getD
                (((ltraj ctx q ortho psi m).cache ++
                    [(ltraj ctx q ortho psi m).beta⁻¹ •
                      (ltraj ctx q ortho psi m).w]).length - 2) 0
        else
          projOut ctx.inner ortho.reverse
            (ctx.matvec (projOut ctx.inner ortho
              ((ltraj ctx q ortho psi m).beta⁻¹ •
                (ltraj ctx q ortho psi m).w)))) -
          (ltraj ctx q ortho psi (m + 1)).alpha •
            ((ltraj ctx q ortho psi m).beta⁻¹ •
              (ltraj ctx q ortho psi m).w) := by
      rw [ltraj_succ ctx q ortho psi m]
      exact fstep_w_eval ctx q ortho m (ltraj ctx q ortho psi m) hpush
    have hne1 : ¬(m + 1 = 0) := by omega
    by_cases hm0 : m = 0
    · subst hm0
      simp only [rstep, RState.mk.injEq, reduceIte, Nat.add_sub_cancel]
      refine ⟨by trivial, ?_, by trivial, ?_⟩
      · simp only [pushVec]
        rw [hw, ← hTd, ← hTo]
        simp only [lt_self_iff_false, if_false, reduceIte]
      · simp only [pushVec]
        rw [show segSum (fun i => (ltraj ctx q ortho psi (ke + 1)).vT i 0 •
          ((ltraj ctx q ortho psi i).beta⁻¹ • (ltraj ctx q ortho psi i).w))
            1 0 = 0 from rfl, add_zero]
        rw [show segSum (fun i => (ltraj ctx q ortho psi (ke + 1)).vT i 0 •
          ((ltraj ctx q ortho psi i).beta⁻¹ • (ltraj ctx q ortho psi i).w))
            1 (0 + 1) = 0 + (ltraj ctx q ortho psi (ke + 1)).vT (0 + 1) 0 •
              ((ltraj ctx q ortho psi (0 + 1)).beta⁻¹ •
                (ltraj ctx q ortho psi (0 + 1)).w) from rfl, zero_add]
        rw [hw, ← hTd, ← hTo]
        simp only [lt_self_iff_false, if_false, reduceIte]
        rw [show (0 : Nat) + 1 = 1 from rfl, zero_add]
    · obtain ⟨t, rfl⟩ : ∃ t, m = t + 1 := ⟨m - 1, by omega⟩
      have hto : (ltraj ctx q ortho psi (ke + 1)).T t (t + 1) =
          (ltraj ctx q ortho psi (t + 1)).beta :=
        ltraj_T_off ctx q ortho psi ke hm t (ke + 1) (by omega) (by omega)
      have hread : ((ltraj ctx q ortho psi (t + 1)).cache ++
            [(ltraj ctx q ortho psi (t + 1)).beta⁻¹ •
              (ltraj ctx q ortho psi (t + 1)).w]).getD
            (((ltraj ctx q ortho psi (t + 1)).cache ++
                [(ltraj ctx q ortho psi (t + 1)).beta⁻¹ •
                  (ltraj ctx q ortho psi (t + 1)).w]).length - 2) 0 =
          pushVec ctx q ortho psi t := by
        rw [getD_concat_len2_of_ne _ _ _ (by
          intro hnil
          rw [hnil] at hlenm
          simp at hlenm)]
        rw [hlenm, Nat.add_sub_cancel]
        exact ltraj_cache_getD ctx q ortho psi hcap (t + 1) (by omega) t
          (by omega)
      simp only [rstep, RState.mk.injEq, Nat.add_sub_cancel,
        if_neg hne1, if_pos (show 0 < t + 1 by omega),
        if_neg (show ¬(t + 1 = 0) by omega)]
      refine ⟨by trivial, ?_, by trivial, ?_⟩
      · simp only [pushVec]
        rw [hw, ← hTd, ← hTo, hread, ← hto]
        simp only [pushVec]
        simp only [if_pos (show 0 < t + 1 by omega)]
      · simp only [pushVec]
        rw [show segSum (fun i => (ltraj ctx q ortho psi (ke + 1)).vT i 0 •
          ((ltraj ctx q ortho psi i).beta⁻¹ • (ltraj ctx q ortho psi i).w)) 1
            (t + 1 + 1) =
          segSum (fun i => (ltraj ctx q ortho psi (ke + 1)).vT i 0 •
            ((ltraj ctx q ortho psi i).beta⁻¹ • (ltraj ctx q ortho psi i).w)) 1
            (t + 1) + (ltraj ctx q ortho psi (ke + 1)).vT (1 + (t + 1)) 0 •
              ((ltraj ctx q ortho psi (1 + (t + 1))).beta⁻¹ •
                (ltraj ctx q ortho psi (1 + (t + 1))).w) from rfl]
        rw [show 1 + (t + 1) = t + 1 + 1 by omega]
        rw [hw, ← hTd, ← hTo, hread, ← hto]
        simp only [pushVec]
        simp only [if_pos (show 0 < t + 1 by omega)]
        rw [add_assoc]

/-- Claim C1, reconstruction equality: with only the last two basis vectors
cached, the cached combination plus the restart-replay accumulation produces
exactly the linear combination over all `N` basis vectors that the fully
cached path produces. -/
theorem c1_pass2 (ctx : LCtx K V) (q : LanczosParams K) (ortho : List V)
    (psi : V) (hcap : q.N_max ≤ q.N_cache) (ke : Nat)
    (hb : ke + 1 ≤ q.N_max) (hke1 : 1 ≤ ke)
    (hm : ∀ i, i < ke → ¬stopCond q (ltraj ctx q ortho psi (i + 1)) i)
    (sf : LState K V) (hsf : sf = ltraj ctx q ortho psi (ke + 1)) :
    ((List.range (ke + 1 - (lastN 2 sf.cache).length - 1)).foldl
        (rstep ctx ortho sf.T sf.vT)
        { q0 := 0, q1 := sf.psiObj, beta := sf.beta,
          psi0 := cacheComb sf.vT (ke + 1) (lastN 2 sf.cache)
            (sf.vT 0 0 • sf.psiObj) }).psi0 =
      cacheComb sf.vT (ke + 1) sf.cache (sf.vT 0 0 • sf.psiObj) := by
  subst hsf
  have hlen : (ltraj ctx q ortho psi (ke + 1)).cache.length = ke + 1 := by
    rw [ltraj_cache_full ctx q ortho psi hcap (ke + 1) hb,
      List.length_map, List.length_range]
  have hlast2 : (lastN 2 (ltraj ctx q ortho psi (ke + 1)).cache).length = 2 := by
    rw [lastN_length, hlen]
    omega
  have hps : (ltraj ctx q ortho psi (ke + 1)).psiObj =
      pushVec ctx q ortho psi 0 := by
    rw [ltraj_psiObj ctx q ortho psi (ke + 1) (by omega)]
    rfl
  have hrhs : cacheComb (ltraj ctx q ortho psi (ke + 1)).vT (ke + 1)
      (ltraj ctx q ortho psi (ke + 1)).cache
      ((ltraj ctx q ortho psi (ke + 1)).vT 0 0 •
        (ltraj ctx q ortho psi (ke + 1)).psiObj) =
      (ltraj ctx q ortho psi (ke + 1)).vT 0 0 •
          (ltraj ctx q ortho psi (ke + 1)).psiObj +
        segSum (fun i => (ltraj ctx q ortho psi (ke + 1)).vT i 0 •
          pushVec ctx q ortho psi i) 1 ke := by
    rw [cacheComb, hlen, show min (ke + 1 + 1) (ke + 1) - 1 = ke by omega,
      foldl_add_segSum]
    congr 1
    rw [segSum_congr
      (fun k => (ltraj ctx q ortho psi (ke + 1)).vT (ke + 1 - k) 0 •
        (ltraj ctx q ortho psi (ke + 1)).cache.getD (ke + 1 - k) 0)
      (fun k => (ltraj ctx q ortho psi (ke + 1)).vT (ke + 1 - k) 0 •
        pushVec ctx q ortho psi (ke + 1 - k)) ke 1
      (fun i h1 h2 => by
        dsimp only
        rw [ltraj_cache_getD ctx q ortho psi hcap (ke + 1) hb (ke + 1 - i)
          (by omega)])]
    rw [segSum_rev (fun i => (ltraj ctx q ortho psi (ke + 1)).vT i 0 •
      pushVec ctx q ortho psi i) (ke + 1) ke (by omega),
      show ke + 1 - ke = 1 by omega]
  have hlhs1 : cacheComb (ltraj ctx q ortho psi (ke + 1)).vT (ke + 1)
      (lastN 2 (ltraj ctx q ortho psi (ke + 1)).cache)
      ((ltraj ctx q ortho psi (ke + 1)).vT 0 0 •
        (ltraj ctx q ortho psi (ke + 1)).psiObj) =
      (ltraj ctx q ortho psi (ke + 1)).vT 0 0 •
          (ltraj ctx q ortho psi (ke + 1)).psiObj +
        segSum (fun k => (ltraj ctx q ortho psi (ke + 1)).vT (ke + 1 - k) 0 •
          pushVec ctx q ortho psi (ke + 1 - k)) 1 (min 3 (ke + 1) - 1) := by
    rw [cacheComb, hlast2, foldl_add_segSum]
    congr 1
    apply segSum_congr
    intro i h1 h2
    dsimp only
    rw [lastN_getD, hlen,
      show ke + 1 - 2 + (2 - i) = ke + 1 - i by omega,
      ltraj_cache_getD ctx q ortho psi hcap (ke + 1) hb (ke + 1 - i)
        (by omega)]
  rw [show ke + 1 - (lastN 2 (ltraj ctx q ortho psi (ke + 1)).cache).length - 1 =
    ke - 2 by rw [hlast2]; omega]
  by_cases hke2 : ke = 1
  · subst hke2
    rw [show (1 : Nat) - 2 = 0 from rfl, List.range_zero, List.foldl_nil]
    rw [hlhs1, hrhs]
    rfl
  · obtain ⟨m, rfl⟩ : ∃ m, ke = m + 2 := ⟨ke - 2, by omega⟩
    rw [c1_replay ctx q ortho psi hcap (m + 2) hb hm _ hps (m + 2 - 2) (by omega)]
    dsimp only
    rw [show m + 2 - 2 = m by omega]
    rw [hlhs1, hrhs, show min 3 (m + 2 + 1) - 1 = 2 by omega]
    rw [segSum_rev (fun i => (ltraj ctx q ortho psi (m + 2 + 1)).vT i 0 •
      pushVec ctx q ortho psi i) (m + 2 + 1) 2 (by omega),
      show m + 2 + 1 - 2 = m + 1 by omega]
    rw [show segSum (fun i => (ltraj ctx q ortho psi (m + 2 + 1)).vT i 0 •
      pushVec ctx q ortho psi i) (m + 1) 2 =
        0 + (ltraj ctx q ortho psi (m + 2 + 1)).vT (m + 1 + 0) 0 •
            pushVec ctx q ortho psi (m + 1 + 0) +
          (ltraj ctx q ortho psi (m + 2 + 1)).vT (m + 1 + 1) 0 •
            pushVec ctx q ortho psi (m + 1 + 1) from rfl, zero_add]
    rw [show segSum (fun i => (ltraj ctx q ortho psi (m + 2 + 1)).vT i 0 •
      pushVec ctx q ortho psi i) 1 (m + 2) =
        segSum (fun i => (ltraj ctx q ortho psi (m + 2 + 1)).vT i 0 •
          pushVec ctx q ortho psi i) 1 m +
          (ltraj ctx q ortho psi (m + 2 + 1)).vT (1 + m) 0 •
            pushVec ctx q ortho psi (1 + m) +
          (ltraj ctx q ortho psi (m + 2 + 1)).vT (1 + (m + 1)) 0 •
            pushVec ctx q ortho psi (1 + (m + 1)) from rfl]
    rw [show m + 1 + 0 = 1 + m by omega,
      show m + 1 + 1 = 1 + (m + 1) by omega]
    abel

/-- Claim C1 at the `lanczosMain` level: the `N_cache = 2` run and a run
with any capacity at least `max 2 N_max` return identical results. -/
theorem c1_main (ctx : LCtx K V) (psi : V) (p : LanczosParams K)
    (ortho : List V) (c : Nat) (hc2 : 2 ≤ c) (hcmax : p.N_max ≤ c) :
    lanczosMain ctx psi { p with N_cache := 2 } ortho =
      lanczosMain ctx psi { p with N_cache := c } ortho := by
  simp only [lanczosMain]
  rw [if_neg (show ¬(({ p with N_cache := 2 } : LanczosParams K).N_cache < 2)
      from (by omega : ¬(2 < 2))),
    if_neg (show ¬(({ p with N_cache := c } : LanczosParams K).N_cache < 2)
      from (show ¬(c < 2) by omega))]
  by_cases h0 : p.N_max = 0
  · rw [if_pos (show ({ p with N_cache := 2 } : LanczosParams K).N_max = 0
      from h0),
      if_pos (show ({ p with N_cache := c } : LanczosParams K).N_max = 0
        from h0)]
  · have hmax : 1 ≤ p.N_max := by omega
    rw [if_neg (show ¬(({ p with N_cache := 2 } : LanczosParams K).N_max = 0)
      from h0),
      if_neg (show ¬(({ p with N_cache := c } : LanczosParams K).N_max = 0)
        from h0)]
    obtain ⟨k1, he1, hb1, hs1, hm1⟩ :=
      lForward_spec ctx { p with N_cache := 2 } ortho psi hmax
    obtain ⟨k2, he2, hb2, hs2, hm2⟩ :=
      lForward_spec ctx { p with N_cache := c } ortho psi hmax
    have hkk : k1 = k2 := by
      have h := c1_exit ctx p ortho psi c hcmax hmax
      rw [he1, he2] at h
      exact h
    subst hkk
    rw [he1, he2]
    dsimp only
    have hb : k1 + 1 ≤ p.N_max := hb1
    by_cases hk0 : k1 = 0
    · subst hk0
      rw [if_pos (show (0 : Nat) + 1 = 1 from rfl),
        if_pos (show (0 : Nat) + 1 = 1 from rfl)]
      rw [c1_traj ctx p ortho psi c hcmax (0 + 1) (by exact hb)]
    · rw [if_neg (show ¬(k1 + 1 = 1) by omega),
        if_neg (show ¬(k1 + 1 = 1) by omega)]
      rw [c1_traj ctx p ortho psi c hcmax (k1 + 1) (by exact hb)]
      dsimp only
      have hlen2 : (ltraj ctx { p with N_cache := c } ortho psi
          (k1 + 1)).cache.length = k1 + 1 := by
        rw [ltraj_cache_full ctx { p with N_cache := c } ortho psi
          (by exact hcmax) (k1 + 1) (by exact hb),
          List.length_map, List.length_range]
      rw [hlen2, show k1 + 1 - (k1 + 1) - 1 = 0 by omega, List.range_zero,
        List.foldl_nil]
      dsimp only
      rw [c1_pass2 ctx { p with N_cache := c } ortho psi (by exact hcmax) k1
        (by exact hb) (by omega) hm2 _ rfl]

/-- Claim C1: for every operator, starting vector, configuration and
orthogonal subspace, running the solver with the minimal cache capacity
`N_cache = 2` and running it with a large cache `N_cache = c ≥ N_max`
(`c ≥ 2`) return the same eigenvalue estimate, the same eigenvector, the
same step count `N`, and the same final value of the caller's vector: the
restart-replay reconstruction regenerates exactly the linear combination
`Σ_k v_T[k,0]·vec[k]` over all `N` Krylov basis vectors that the
fully-cached path forms directly from its cache. -/
theorem c1_cache_equivalence (ctx : LCtx K V) (psi : V) (p : LanczosParams K)
    (ortho : List V) (c : Nat) (hc2 : 2 ≤ c) (hcmax : p.N_max ≤ c) :
    lanczos ctx psi { p with N_cache := 2 } ortho =
      lanczos ctx psi { p with N_cache := c } ortho := by
  cases ortho with
  | nil =>
    simp only [lanczos, List.length_nil]
    rw [if_neg (by omega), if_neg (by omega)]
    exact c1_main ctx psi p [] c hc2 hcmax
  | cons v l =>
    simp only [lanczos]
    rw [if_pos (by simp), if_pos (by simp)]
    have hv2 : ({ p with N_cache := 2 } : LanczosParams K).verbose =
      p.verbose := rfl
    have hvc : ({ p with N_cache := c } : LanczosParams K).verbose =
      p.verbose := rfl
    rw [hv2, hvc]
    cases gram_schmidt ctx.norm ctx.inner (v :: l) (p.verbose / 10) with
    | none => rfl
    | some pr => exact c1_main ctx psi p pr.1 c hc2 hcmax

/-- Witness for C1 at a concrete run that exercises the replay path: the
cyclic-shift operator on four components, `N_max = 4`, caches of size 2
and 4 (the forward pass runs all four steps, so the size-2 run must
regenerate two evicted basis vectors). -/
theorem c1_witness :
    2 ≤ 4 ∧
      ({ defaultParams ℚ with N_max := 4 } : LanczosParams ℚ).N_max ≤ 4 ∧
      lanczos ctxShift ((1, (0, (0, 0))) : V4)
          { { defaultParams ℚ with N_max := 4 } with N_cache := 2 } [] =
        lanczos ctxShift ((1, (0, (0, 0))) : V4)
          { { defaultParams ℚ with N_max := 4 } with N_cache := 4 } [] :=
  ⟨by omega, by decide,
    c1_cache_equivalence ctxShift ((1, (0, (0, 0))) : V4)
      { defaultParams ℚ with N_max := 4 } [] 4 (by omega) (by decide)⟩

end Tenpy
